import Mathlib

/-!
# A formal model of the `Config` expression evaluator

This file gives a shallow embedding, in Lean 4, of the configuration
evaluator implemented in `src/lib/Config.ts` (together with the
`Throwable` error class of `src/lib/Throwable.ts`): JavaScript values,
the string utilities, the hand-translated regular expressions, the
mutually recursive directive evaluator (nullish coalescing,
if/then/else with comparisons and boolean combinators), and the
stateful, memoized, cycle-guarded variable-resolution layer, plus the
`get`, `raw` and `hash` methods of the public facade.

Conventions used throughout:

* JavaScript strings are modelled as `List Char` wherever character
  scanning happens and as `String` at API boundaries; all character
  functions are written from first principles so that every definition
  reduces inside the kernel.
* JavaScript numbers are modelled as `ℚ`; `NaN` and the infinities are
  modelled by `Option ℚ` being `none` at the two places the source
  inspects numbers (`Number.isFinite` guards every numeric use, so
  non-finite numbers and `NaN` are observationally identical there).
* The mutually recursive evaluator cluster is modelled as a
  fuel-indexed family of function records; running out of fuel is a
  `stackOverflow` error, mirroring runtime stack exhaustion, which the
  source accepts as a possibility for pathological inputs.
* Exceptions are modelled with `Except`; the environment
  (`Bun.env`) is a fixed association list carried in the state, and
  every environment lookup is recorded in an observation log so that
  evaluation counts are provable facts.
-/

set_option maxRecDepth 4000

namespace Conf

/-! ## Character and string basics -/

/-- Left brace character, written by code point. -/
def lbraceC : Char := Char.ofNat 123

/-- Right brace character, written by code point. -/
def rbraceC : Char := Char.ofNat 125

/-- The JavaScript whitespace characters relevant to this code base:
the members of the regexp class `\s` and of `String.prototype.trim`
that can occur in configuration text (ASCII whitespace). -/
def isJsWs (c : Char) : Bool :=
  c == ' ' || c == '\t' || c == '\n' || c == '\r' || c == '\x0b' || c == '\x0c'

/-- Leading-whitespace run length. -/
def wsRunL (l : List Char) : Nat :=
  (l.takeWhile isJsWs).length

/-- Leading run length of non-whitespace characters (the regexp `[^\s]+`). -/
def nonWsRunL (l : List Char) : Nat :=
  (l.takeWhile (fun c => !isJsWs c)).length

/-- `String.prototype.trimEnd`. -/
def jsTrimEndL (l : List Char) : List Char :=
  (l.reverse.dropWhile isJsWs).reverse

/-- `String.prototype.trim`. -/
def jsTrimL (l : List Char) : List Char :=
  jsTrimEndL (l.dropWhile isJsWs)

/-- `String.prototype.trim`, on `String`. -/
def jsTrim (s : String) : String :=
  (jsTrimL s.data).asString

/-- Does `l` begin with `p`? (`String.prototype.startsWith`). -/
def startsWithL : List Char → List Char → Bool
  | [], _ => true
  | _ :: _, [] => false
  | p :: ps, c :: cs => p == c && startsWithL ps cs

/-- Does `l` end with `p`? (`String.prototype.endsWith`). -/
def endsWithL (p l : List Char) : Bool :=
  startsWithL p.reverse l.reverse

/-- ASCII lower-casing of a string (`String.prototype.toLowerCase`). -/
def toLowerL (l : List Char) : List Char :=
  l.map Char.toLower

/-- Character at an index, if any (JavaScript `str[i]`, which yields
`undefined` out of range). -/
def charAt? (l : List Char) (i : Nat) : Option Char :=
  (l.drop i).head?

/-- JavaScript `str.slice(a, b)` for `0 ≤ a ≤ b` (clamped at the ends). -/
def sliceL (l : List Char) (a b : Nat) : List Char :=
  (l.take b).drop a

/-- JavaScript `str.slice(1, -1)`. -/
def interiorL (l : List Char) : List Char :=
  (l.drop 1).dropLast

/-- Is `sub` a contiguous substring of `l`? (`String.prototype.includes`). -/
def containsSubL (sub : List Char) : List Char → Bool
  | [] => startsWithL sub []
  | c :: rest => startsWithL sub (c :: rest) || containsSubL sub rest

/-- Index of the first occurrence of `sub` in `l`, if any. -/
def idxOfSubL (sub : List Char) : List Char → Option Nat
  | [] => if startsWithL sub [] then some 0 else none
  | c :: rest =>
    if startsWithL sub (c :: rest) then some 0
    else (idxOfSubL sub rest).map (· + 1)

/-- Remove the first occurrence of `sub` from `l`, if present
(JavaScript `str.replace(plainString, '')`). -/
def removeFirstSubL (sub : List Char) (l : List Char) : List Char :=
  match idxOfSubL sub l with
  | none => l
  | some i => l.take i ++ l.drop (i + sub.length)

/-- Split at every occurrence of `sep`, keeping empty pieces
(JavaScript `str.split('.')` and friends, single-character form). -/
def splitCharL (sep : Char) : List Char → List (List Char)
  | [] => [[]]
  | c :: rest =>
    let r := splitCharL sep rest
    if c == sep then [] :: r
    else
      match r with
      | [] => [[c]]
      | h :: t => (c :: h) :: t

/-- Split on the regexp `/\r?\n/`: every `'\n'` is a split point, and a
`'\r'` immediately before it belongs to the separator. -/
def splitNlL : List Char → List (List Char)
  | [] => [[]]
  | '\r' :: '\n' :: rest => [] :: splitNlL rest
  | '\n' :: rest => [] :: splitNlL rest
  | c :: rest =>
    match splitNlL rest with
    | [] => [[c]]
    | h :: t => (c :: h) :: t

/-- Join pieces with a single separator character (`Array.prototype.join`). -/
def joinCharL (sep : Char) : List (List Char) → List Char
  | [] => []
  | [p] => p
  | p :: rest => p ++ sep :: joinCharL sep rest

/-- `input.trim().split(/\r?\n/).map(e => e.trim()).join(' ')`: the
line-joining normalisation performed by the block evaluator. -/
def joinLinesL (l : List Char) : List Char :=
  joinCharL ' ' ((splitNlL (jsTrimL l)).map jsTrimL)

/-- Join a list of strings with a separator string
(`Array.prototype.join(' -> ')`). -/
def joinWith (sep : String) : List String → String
  | [] => ""
  | [p] => p
  | p :: rest => p ++ sep ++ joinWith sep rest

/-! ## JavaScript values -/

/-- A JavaScript value as far as the configuration evaluator can
observe one: `undefined`, `null`, booleans, (finite) numbers, strings,
arrays and plain objects.  Objects are association lists in insertion
order, matching the enumeration order of the plain objects produced by
deserialisation. -/
inductive JSVal where
  | undef : JSVal
  | vnull : JSVal
  | vbool : Bool → JSVal
  | vnum : ℚ → JSVal
  | vstr : String → JSVal
  | varr : List JSVal → JSVal
  | vobj : List (String × JSVal) → JSVal
  deriving Repr, Inhabited

/-- `value === void 0`. -/
def JSVal.isUndef : JSVal → Bool
  | .undef => true
  | _ => false

/-- `value === void 0 || value === null` (the values caught by `??`). -/
def JSVal.isNullish : JSVal → Bool
  | .undef => true
  | .vnull => true
  | _ => false

/-- JavaScript truthiness.  `NaN` cannot occur as a stored number (see
the module docstring), so a number is falsy exactly when it is zero. -/
def truthy : JSVal → Bool
  | .undef => false
  | .vnull => false
  | .vbool b => b
  | .vnum q => q.num != 0
  | .vstr s => !s.data.isEmpty
  | .varr _ => true
  | .vobj _ => true

/-! ## `Number(string)`: string-to-number coercion

`Option ℚ` is the value space: `none` stands for the non-finite
results (`NaN` and the infinities), which the source only ever feeds
into `Number.isFinite` guards, where all of them behave alike. -/

/-- Decimal digit value. -/
def digitVal? (c : Char) : Option Nat :=
  if 48 ≤ c.toNat ∧ c.toNat ≤ 57 then some (c.toNat - 48) else none

/-- Hexadecimal digit value. -/
def hexVal? (c : Char) : Option Nat :=
  if 48 ≤ c.toNat ∧ c.toNat ≤ 57 then some (c.toNat - 48)
  else if 97 ≤ c.toNat ∧ c.toNat ≤ 102 then some (c.toNat - 87)
  else if 65 ≤ c.toNat ∧ c.toNat ≤ 70 then some (c.toNat - 55)
  else none

/-- Fold a digit list in a given base; `none` unless every character is
a digit of that base. -/
def digitsToNat? (dv : Char → Option Nat) (base : Nat) : List Char → Option Nat
  | [] => some 0
  | c :: rest =>
    match dv c, digitsToNat? dv base rest with
    | some d, some r => some (d * base ^ rest.length + r)
    | _, _ => none

/-- Parse an optional sign followed by the JavaScript decimal-literal
grammar `digits [. digits] [e [±] digits]` (also `.digits`), returning
the exact rational value.  Integers are built by an integer cast so
that the common case stays kernel-computable. -/
def decimalToRat? (l : List Char) : Option ℚ :=
  let (sign, body) :=
    match l with
    | '-' :: rest => ((-1 : Int), rest)
    | '+' :: rest => ((1 : Int), rest)
    | _ => ((1 : Int), l)
  let ip := body.takeWhile (fun c => (digitVal? c).isSome)
  let afterInt := body.drop ip.length
  let (fp, afterFrac) :=
    match afterInt with
    | '.' :: rest =>
      let f := rest.takeWhile (fun c => (digitVal? c).isSome)
      (f, rest.drop f.length)
    | _ => ([], afterInt)
  if ip.isEmpty ∧ fp.isEmpty then none
  else
    let (expOk, expVal, afterExp) :=
      match afterFrac with
      | 'e' :: rest => decimalExp rest
      | 'E' :: rest => decimalExp rest
      | _ => (true, (0 : Int), afterFrac)
    if expOk ∧ afterExp = [] then
      match digitsToNat? digitVal? 10 ip, digitsToNat? digitVal? 10 fp with
      | some ipv, some fpv =>
        let mant : Int := sign * (ipv * 10 ^ fp.length + fpv)
        let pow : Int := expVal - fp.length
        if 0 ≤ pow then some ((mant * 10 ^ pow.toNat : Int) : ℚ)
        else some (((mant : Int) : ℚ) / ((10 ^ (-pow).toNat : Int) : ℚ))
      | _, _ => none
    else none
where
  /-- Exponent part `[±] digits`; returns (well-formed?, value, rest). -/
  decimalExp (rest : List Char) : Bool × Int × List Char :=
    let (esign, ebody) :=
      match rest with
      | '-' :: r => ((-1 : Int), r)
      | '+' :: r => ((1 : Int), r)
      | _ => ((1 : Int), rest)
    let ed := ebody.takeWhile (fun c => (digitVal? c).isSome)
    match digitsToNat? digitVal? 10 ed with
    | some v => (!ed.isEmpty, esign * v, ebody.drop ed.length)
    | none => (false, 0, ebody)

/-- `Number(string)` restricted to finite results: whitespace-trimmed;
the empty string is `0`; `0x`/`0o`/`0b` literals; otherwise the signed
decimal grammar.  `NaN`, `Infinity` and `-Infinity` are `none`. -/
def strToNumberL (l : List Char) : Option ℚ :=
  let t := jsTrimL l
  if t.isEmpty then some 0
  else
    match t with
    | '0' :: 'x' :: ds => radixNat 16 hexVal? ds
    | '0' :: 'X' :: ds => radixNat 16 hexVal? ds
    | '0' :: 'o' :: ds => radixNat 8 (fun c => (digitVal? c).filter (fun d => decide (d < 8))) ds
    | '0' :: 'O' :: ds => radixNat 8 (fun c => (digitVal? c).filter (fun d => decide (d < 8))) ds
    | '0' :: 'b' :: ds => radixNat 2 (fun c => (digitVal? c).filter (fun d => decide (d < 2))) ds
    | '0' :: 'B' :: ds => radixNat 2 (fun c => (digitVal? c).filter (fun d => decide (d < 2))) ds
    | _ => decimalToRat? t
where
  /-- A non-empty digit string in the given base. -/
  radixNat (base : Nat) (dv : Char → Option Nat) (ds : List Char) : Option ℚ :=
    if ds.isEmpty then none
    else (digitsToNat? dv base ds).map (fun n => ((n : Int) : ℚ))

/-- Render an integer in decimal. -/
def intToString (z : Int) : String :=
  if z < 0 then "-" ++ Nat.repr z.natAbs else Nat.repr z.natAbs

/-- Left-pad a decimal digit string with zeros to a given width. -/
def padZeros (w : Nat) (s : String) : String :=
  (List.replicate (w - s.data.length) '0').asString ++ s

/-- `String(number)` for the numbers this system can produce: integers
in plain decimal, and terminating decimal fractions rendered with all
their digits (the only non-integers the evaluator can build come from
parsing decimal literals, whose denominators divide a power of ten).
Other denominators, unreachable here, fall back to a fraction form. -/
def ratToString (q : ℚ) : String :=
  if q.den = 1 then intToString q.num
  else
    match (List.range 64).findSome?
        (fun i => if 10 ^ (i + 1) % q.den = 0 then some (i + 1) else none) with
    | some k =>
      let total := q.num.natAbs * (10 ^ k / q.den)
      let sign := if q.num < 0 then "-" else ""
      sign ++ Nat.repr (total / 10 ^ k) ++ "." ++ padZeros k (Nat.repr (total % 10 ^ k))
    | none => intToString q.num ++ "/" ++ Nat.repr q.den

/-- `String(value)`.  The fuel is inspected only to recurse through
array elements (`Array.prototype.join(',')`, in which `null` and
`undefined` render as empty), so scalar conversions never consume it;
every caller inside the evaluator passes its own recursion budget. -/
def jsToStringF (fuel : Nat) (v : JSVal) : String :=
  match v with
  | .undef => "undefined"
  | .vnull => "null"
  | .vbool b => if b then "true" else "false"
  | .vnum q => ratToString q
  | .vstr s => s
  | .varr l =>
    (match fuel with
     | 0 => ""
     | fuel + 1 =>
       joinWith "," (l.map (fun e =>
         match e with
         | .undef => ""
         | .vnull => ""
         | e => jsToStringF fuel e)))
  | .vobj _ => "[object Object]"

/-- `ToNumber` on values: `undefined ↦ NaN`, `null ↦ 0`, booleans to
`0`/`1`, strings through `Number(string)`, and structured values
through their string form (arrays join; plain objects render as
`[object Object]`, which is `NaN`). -/
def jsToNumberF (fuel : Nat) : JSVal → Option ℚ
  | .undef => none
  | .vnull => some 0
  | .vbool b => some (if b then 1 else 0)
  | .vnum q => some q
  | .vstr s => strToNumberL s.data
  | .varr l => strToNumberL (jsToStringF fuel (.varr l)).data
  | .vobj l => strToNumberL (jsToStringF fuel (.vobj l)).data

/-- Booleans convert to numbers before a loose comparison. -/
def primNorm : JSVal → JSVal
  | .vbool b => .vnum (if b then 1 else 0)
  | v => v

/-- Loose equality (`==`) between primitive values. -/
def primLooseEq (a b : JSVal) : Bool :=
  match primNorm a, primNorm b with
  | .undef, .undef => true
  | .undef, .vnull => true
  | .vnull, .undef => true
  | .vnull, .vnull => true
  | .vnum p, .vnum q => decide (p = q)
  | .vnum p, .vstr s =>
    match strToNumberL s.data with
    | some q => decide (p = q)
    | none => false
  | .vstr s, .vnum q =>
    match strToNumberL s.data with
    | some p => decide (p = q)
    | none => false
  | .vstr s, .vstr t => s == t
  | _, _ => false

/-- Loose equality (`==`).  Two structured values compare by object
identity in JavaScript; the comparison operands of this evaluator are
produced by separate evaluations, so they are modelled as distinct
(never equal).  A structured value against a primitive goes through
`ToPrimitive`, i.e. its string form. -/
def jsLooseEqF (fuel : Nat) (a b : JSVal) : Bool :=
  match a, b with
  | .varr _, .varr _ => false
  | .varr _, .vobj _ => false
  | .vobj _, .varr _ => false
  | .vobj _, .vobj _ => false
  | .varr _, _ => primLooseEq (.vstr (jsToStringF fuel a)) b
  | .vobj _, _ => primLooseEq (.vstr (jsToStringF fuel a)) b
  | _, .varr _ => primLooseEq a (.vstr (jsToStringF fuel b))
  | _, .vobj _ => primLooseEq a (.vstr (jsToStringF fuel b))
  | _, _ => primLooseEq a b

/-! ## `JSON.parse` -/

/-- JSON whitespace. -/
def isJsonWs (c : Char) : Bool :=
  c == ' ' || c == '\t' || c == '\n' || c == '\r'

/-- Parse the body of a JSON string literal after the opening quote:
returns the decoded characters and the remainder after the closing
quote. -/
def jsonStringBody : List Char → Option (List Char × List Char)
  | [] => none
  | '"' :: rest => some ([], rest)
  | '\\' :: e :: rest =>
    (match e with
     | '"' => (jsonStringBody rest).map (fun (s, r) => ('"' :: s, r))
     | '\\' => (jsonStringBody rest).map (fun (s, r) => ('\\' :: s, r))
     | '/' => (jsonStringBody rest).map (fun (s, r) => ('/' :: s, r))
     | 'b' => (jsonStringBody rest).map (fun (s, r) => ('\x08' :: s, r))
     | 'f' => (jsonStringBody rest).map (fun (s, r) => ('\x0c' :: s, r))
     | 'n' => (jsonStringBody rest).map (fun (s, r) => ('\n' :: s, r))
     | 'r' => (jsonStringBody rest).map (fun (s, r) => ('\r' :: s, r))
     | 't' => (jsonStringBody rest).map (fun (s, r) => ('\t' :: s, r))
     | 'u' =>
       (match rest with
        | a :: b :: c :: d :: rest' =>
          match hexVal? a, hexVal? b, hexVal? c, hexVal? d with
          | some x, some y, some z, some w =>
            (jsonStringBody rest').map
              (fun (s, r) => (Char.ofNat (((x * 16 + y) * 16 + z) * 16 + w) :: s, r))
          | _, _, _, _ => none
        | _ => none)
     | _ => none)
  | c :: rest =>
    if c.toNat < 32 then none
    else (jsonStringBody rest).map (fun (s, r) => (c :: s, r))

/-- Strict JSON number grammar: `-? int frac? exp?` with `int` either
`0` or a digit string not starting with `0`. -/
def jsonNumber? (l : List Char) : Option (ℚ × List Char) :=
  let (sign, body) :=
    match l with
    | '-' :: rest => ((-1 : Int), rest)
    | _ => ((1 : Int), l)
  let ip := body.takeWhile (fun c => (digitVal? c).isSome)
  if ip.isEmpty then none
  else if ip.length > 1 ∧ ip.head? = some '0' then none
  else
    let afterInt := body.drop ip.length
    let (fp, afterFrac) :=
      match afterInt with
      | '.' :: rest =>
        let f := rest.takeWhile (fun c => (digitVal? c).isSome)
        (f, rest.drop f.length)
      | _ => ([], afterInt)
    if afterInt.head? = some '.' ∧ fp.isEmpty then none
    else
      let (expOk, expVal, afterExp) :=
        match afterFrac with
        | 'e' :: rest => decimalToRat?.decimalExp rest
        | 'E' :: rest => decimalToRat?.decimalExp rest
        | _ => (true, (0 : Int), afterFrac)
      if ¬ expOk then none
      else
        match digitsToNat? digitVal? 10 ip, digitsToNat? digitVal? 10 fp with
        | some ipv, some fpv =>
          let mant : Int := sign * (ipv * 10 ^ fp.length + fpv)
          let pow : Int := expVal - fp.length
          if 0 ≤ pow then some (((mant * 10 ^ pow.toNat : Int) : ℚ), afterExp)
          else some ((((mant : Int) : ℚ) / ((10 ^ (-pow).toNat : Int) : ℚ)), afterExp)
        | _, _ => none

/-- Parser mode: a value, the tail of an array, or the tail of an
object (with the items accumulated so far). -/
inductive JTask where
  | val : JTask
  | arr : List JSVal → JTask
  | objm : List (String × JSVal) → JTask

/-- The JSON parser proper, as a fuelled step machine (the fuel only
bounds nesting and item count; callers supply a fuel larger than the
input length). -/
def jsonStep : Nat → JTask → List Char → Option (JSVal × List Char)
  | 0, _, _ => none
  | fuel + 1, .val, l =>
    let l := l.dropWhile isJsonWs
    match l with
    | 'n' :: 'u' :: 'l' :: 'l' :: rest => some (.vnull, rest)
    | 't' :: 'r' :: 'u' :: 'e' :: rest => some (.vbool true, rest)
    | 'f' :: 'a' :: 'l' :: 's' :: 'e' :: rest => some (.vbool false, rest)
    | '"' :: rest =>
      (jsonStringBody rest).map (fun (s, r) => (.vstr s.asString, r))
    | '[' :: rest =>
      let rest' := rest.dropWhile isJsonWs
      (match rest' with
       | ']' :: r => some (.varr [], r)
       | _ => jsonStep fuel (.arr []) rest)
    | c :: rest =>
      if c == lbraceC then
        let rest' := rest.dropWhile isJsonWs
        (match rest' with
         | c' :: r => if c' == rbraceC then some (.vobj [], r) else jsonStep fuel (.objm []) rest
         | _ => jsonStep fuel (.objm []) rest)
      else (jsonNumber? (c :: rest)).map (fun (q, r) => (.vnum q, r))
    | _ =>
      (jsonNumber? l).map (fun (q, r) => (.vnum q, r))
  | fuel + 1, .arr acc, l =>
    match jsonStep fuel .val l with
    | none => none
    | some (v, r) =>
      let r := r.dropWhile isJsonWs
      match r with
      | ',' :: r' => jsonStep fuel (.arr (acc ++ [v])) r'
      | ']' :: r' => some (.varr (acc ++ [v]), r')
      | _ => none
  | fuel + 1, .objm acc, l =>
    let l := l.dropWhile isJsonWs
    match l with
    | '"' :: rest =>
      match jsonStringBody rest with
      | none => none
      | some (k, r) =>
        let r := r.dropWhile isJsonWs
        match r with
        | ':' :: r' =>
          match jsonStep fuel .val r' with
          | none => none
          | some (v, r'') =>
            let r'' := r''.dropWhile isJsonWs
            match r'' with
            | ',' :: r3 => jsonStep fuel (.objm (acc ++ [(k.asString, v)])) r3
            | c3 :: r3 =>
              if c3 == rbraceC then some (.vobj (acc ++ [(k.asString, v)]), r3) else none
            | _ => none
        | _ => none
    | _ => none

/-- `JSON.parse` as a partial function: the whole input (up to trailing
whitespace) must be consumed. -/
def jsonParse (l : List Char) : Option JSVal :=
  match jsonStep (2 * l.length + 2) .val l with
  | some (v, rest) => if (rest.dropWhile isJsonWs).isEmpty then some v else none
  | none => none

/-! ## The `Utils` namespace of `Config.ts` -/

/-- No newline characters: the constraint imposed by the regexp
metacharacter `.` without the `s` flag. -/
def noNlL (l : List Char) : Bool :=
  l.all (fun c => !(c == '\n' || c == '\r'))

/-- `Utils.trimParens`: `str.replace(/^\((.*)\)$/, '$1').trim()`.  The
replacement fires only when the whole string is wrapped in parentheses
and the interior spans no newline; the result is trimmed either way. -/
def trimParensL (l : List Char) : List Char :=
  if l.length ≥ 2 ∧ l.head? = some '(' ∧ l.getLast? = some ')' ∧ noNlL (interiorL l) = true
  then jsTrimL (interiorL l)
  else jsTrimL l

/-- Is the character a single or double quote? -/
def isQuote (c : Char) : Bool :=
  c == '\'' || c == '"'

/-- `Utils.trimQuotes`: `str.replace(/^(['"])(.*)\1$/, '$2').trim()`.
The backreference forces the same quote character at both ends. -/
def trimQuotesL (l : List Char) : List Char :=
  if l.length ≥ 2 ∧ l.head? = l.getLast? ∧ (∃ c, l.head? = some c ∧ isQuote c = true) ∧
      noNlL (interiorL l) = true
  then jsTrimL (interiorL l)
  else jsTrimL l

/-- `Utils.trimQuotes` as called on evaluator results, whose `typeof`
guard passes every non-string value through untouched. -/
def trimQuotesV : JSVal → JSVal
  | .vstr s => .vstr (trimQuotesL s.data).asString
  | v => v

/-- `Utils.parsePrimitiveValue`: non-empty strings try, in order, the
boolean words, a finite numeric parse, and a structured-literal parse
kept only when it produces an object or an array; anything else (and
every non-string) passes through unchanged. -/
def parsePrimitiveValue (value : JSVal) : JSVal :=
  match value with
  | .vstr s =>
    if (jsTrimL s.data).isEmpty then .vstr s
    else
      let lower := toLowerL (jsTrimL s.data)
      if lower == "true".data then .vbool true
      else if lower == "false".data then .vbool false
      else
        match strToNumberL s.data with
        | some q => .vnum q
        | none =>
          match jsonParse s.data with
          | some (.varr l) => .varr l
          | some (.vobj l) => .vobj l
          | _ => .vstr s
  | v => v

/-- The loop of `Utils.findBalancedParenBlock`, carried out over the
remaining characters with the absolute index, the parenthesis depth,
the started flag and the accumulated block. -/
def fbpbLoop : List Char → Nat → Int → Bool → List Char → (List Char × Nat)
  | [], i, _, _, block => (block, i + 1)
  | c :: rest, i, depth, started, block =>
    let depth1 := if c == '(' then depth + 1 else depth
    let started1 := if c == '(' then true else started
    let depth2 := if c == ')' then depth1 - 1 else depth1
    let block1 := block ++ [c]
    if started1 && depth2 == 0 then (block1, i + 1)
    else fbpbLoop rest (i + 1) depth2 started1 block1

/-- `Utils.findBalancedParenBlock(str, startIdx)`. -/
def findBalancedParenBlockL (l : List Char) (startIdx : Nat) : List Char × Nat :=
  fbpbLoop (l.drop startIdx) startIdx 0 false []

/-! ## The hand-translated regular expressions and the tokenizer -/

/-- Is this optional character whitespace?
(`/\s/.test(str[i] || '')`, where an out-of-range index gives `''`,
which the test rejects.) -/
def wsOpt : Option Char → Bool
  | some c => isJsWs c
  | none => false

/-- `/\s/.test(str[i] || '')` at an index. -/
def wsOptAt (l : List Char) (i : Nat) : Bool :=
  wsOpt (charAt? l i)

/-- Push a pending operand token if its trim is non-empty
(`if (current.trim()) tokens.push(current.trim())`). -/
def tokPush (tokens : List (List Char)) (current : List Char) : List (List Char) :=
  if (jsTrimL current).isEmpty then tokens else tokens ++ [jsTrimL current]

/-- The loop of `tokenizeCondition`: split on whitespace-delimited
`and`/`or` keywords (matched case-insensitively via a lower-cased
three-character window) at parenthesis depth zero.  `prev` is the
character before the cursor, if any.  The fuel, at least the number of
remaining characters, makes the recursion structural; every iteration
consumes at least one character, so it cannot run out. -/
def tokLoop : Nat → List Char → Option Char → Int → List Char → List (List Char) →
    List (List Char)
  | _, [], _, _, current, tokens => tokPush tokens current
  | 0, _ :: _, _, _, current, tokens => tokPush tokens current
  | fuel + 1, c :: rest, prev, depth, current, tokens =>
    if c == '(' then tokLoop fuel rest (some c) (depth + 1) (current ++ [c]) tokens
    else if c == ')' then tokLoop fuel rest (some c) (depth - 1) (current ++ [c]) tokens
    else if depth == 0 then
      let t3 := jsTrimEndL (toLowerL ((c :: rest).take 3))
      if t3 == "and".data && wsOpt prev && wsOptAt rest 2 then
        tokLoop fuel (rest.drop 2) (charAt? rest 1) depth []
          (tokPush tokens current ++ ["and".data])
      else if t3 == "or".data && wsOpt prev && wsOptAt rest 1 then
        tokLoop fuel (rest.drop 1) (charAt? rest 0) depth []
          (tokPush tokens current ++ ["or".data])
      else tokLoop fuel rest (some c) depth (current ++ [c]) tokens
    else tokLoop fuel rest (some c) depth (current ++ [c]) tokens

/-- `tokenizeCondition`. -/
def tokenizeConditionL (l : List Char) : List (List Char) :=
  tokLoop (l.length + 1) l none 0 [] []

/-- The whole-condition balance check inside `evalLogical`: scanning a
condition that starts with `(` and ends with `)`, the unwrap is abandoned
if the depth returns to zero before the final character. -/
def pbwLoop : List Char → Int → Bool
  | [], _ => true
  | c :: rest, depth =>
    let d1 := if c == '(' then depth + 1 else depth
    let d2 := if c == ')' then d1 - 1 else d1
    if d2 == 0 && !rest.isEmpty then false else pbwLoop rest d2

/-- `/^not\s+/i.test(cond)`. -/
def notKeywordTest (l : List Char) : Bool :=
  startsWithL "not".data (toLowerL l) && wsOptAt l 3

/-- `cond.replace(/^not\s+/i, '')`: drop the keyword and the greedy
whitespace run after it. -/
def notKeywordStrip (l : List Char) : List Char :=
  (l.drop 3).dropWhile isJsWs

/-- First character of the variable-name class `[a-zA-Z_]`. -/
def isVarStart (c : Char) : Bool :=
  (97 ≤ c.toNat && c.toNat ≤ 122) || (65 ≤ c.toNat && c.toNat ≤ 90) || c == '_'

/-- Later characters of the variable-name class `[a-zA-Z0-9_\.]`. -/
def isVarChar (c : Char) : Bool :=
  isVarStart c || (48 ≤ c.toNat && c.toNat ≤ 57) || c == '.'

/-- The anchored variable reference `/^\$([a-zA-Z_][a-zA-Z0-9_\.]*)$/`:
the captured name when the whole string is one reference. -/
def fullVarMatchL : List Char → Option (List Char)
  | '$' :: c :: rest =>
    if isVarStart c && rest.all isVarChar then some (c :: rest) else none
  | _ => none

/-- Case-insensitive literal prefix match (the pattern is given in
lower case). -/
def matchCi (pat : List Char) (l : List Char) : Bool :=
  startsWithL pat (toLowerL (l.take pat.length))

/-- For `/^if\s+\(([\s\S]+?)\)\s+then\s+\(/i`: once a candidate close
parenthesis index `e` for the lazily captured condition is fixed, the
continuation `\)\s+then\s+\(` is deterministic (each `\s+` is a full
whitespace run because the following literal is not whitespace).
Returns the index of the `(` after `then`. -/
def ifHeadTailCheck (l : List Char) (e : Nat) : Option Nat :=
  if charAt? l e ≠ some ')' then none
  else
    let t1 := wsRunL (l.drop (e + 1))
    if t1 = 0 then none
    else if ¬ matchCi "then".data (l.drop (e + 1 + t1)) = true then none
    else
      let b := e + 5 + t1
      let t2 := wsRunL (l.drop b)
      if t2 = 0 then none
      else if charAt? l (b + t2) = some '(' then some (b + t2) else none

/-- `content.match(/^if\s+\(([\s\S]+?)\)\s+then\s+\(/i)`: the lazy
group takes the smallest condition whose continuation matches.
Returns the condition and `condEnd`, the index of the `(` after
`then` (that is, `match[0].length - 1`). -/
def ifHeadMatchL (l : List Char) : Option (List Char × Nat) :=
  if ¬ matchCi "if".data l = true then none
  else
    let t := wsRunL (l.drop 2)
    if t = 0 then none
    else if charAt? l (2 + t) ≠ some '(' then none
    else
      let condStart := 3 + t
      (List.range l.length).findSome? fun e =>
        if e < condStart + 1 then none
        else
          match ifHeadTailCheck l e with
          | some condEnd => some (sliceL l condStart e, condEnd)
          | none => none

/-- All whitespace (the tail condition `\s*$`). -/
def allWsL (l : List Char) : Bool :=
  l.all isJsWs

/-- The right-hand part `\s*(?<right>[\s\S]+?)\s*$` of the
nullish-coalescing pattern, starting at `base`: the leading `\s*` is
greedy (longest first), the capture is lazy (shortest first), and the
remainder must be whitespace. -/
def nsRight (l : List Char) (base : Nat) : Option (List Char) :=
  let t := wsRunL (l.drop base)
  (List.range (t + 1)).findSome? fun d =>
    let p := base + (t - d)
    (List.range (l.length + 1)).findSome? fun q =>
      if q < p + 1 then none
      else if allWsL (l.drop q) then some (sliceL l p q) else none

/-- One candidate split of the nullish pattern: the lazy left capture
is `l[w:j)`; after it, the greedy `\s*` and the literal `??` are
deterministic; then the right part must match. -/
def nsTryAt (l : List Char) (w j : Nat) : Option (List Char × List Char) :=
  let k := j + wsRunL (l.drop j)
  if charAt? l k = some '?' ∧ charAt? l (k + 1) = some '?' then
    match nsRight l (k + 2) with
    | some r => some (sliceL l w j, r)
    | none => none
  else none

/-- `/^(?!if\s+)\s*(?<left>[\s\S]+?)\s*\?\?\s*(?<right>[\s\S]+?)\s*$/`:
the captured sides, with the backtracking order of the engine (greedy
leading `\s*` longest first, lazy left shortest first). -/
def nullishSplitL (l : List Char) : Option (List Char × List Char) :=
  if startsWithL "if".data l && wsOptAt l 2 then none
  else
    let t := wsRunL l
    (List.range (t + 1)).findSome? fun d =>
      let w := t - d
      (List.range (l.length + 1)).findSome? fun j =>
        if j < w + 1 then none else nsTryAt l w j

/-- The comparison operators, in the source's order (so that, e.g.,
`>` is tried before `>=` and succeeds or fails by its continuation). -/
def condOps : List (List Char) :=
  ["equals".data, "startswith".data, "endswith".data, "contains".data,
   ['>'], ['>', '='], ['<'], ['<', '=']]

/-- The quoted alternative `['"].*?['"]` of the comparison right-hand
side, followed by `\s*$`: lazy body (no newline), any quote closes. -/
def opQuoteAlt (l : List Char) (p0 : Nat) : Option (List Char) :=
  match charAt? l p0 with
  | some c =>
    if isQuote c then
      (List.range (l.length + 1)).findSome? fun q =>
        if q < p0 + 1 then none
        else
          match charAt? l q with
          | some c' =>
            if isQuote c' ∧ noNlL (sliceL l (p0 + 1) q) = true ∧ allWsL (l.drop (q + 1)) = true
            then some (sliceL l p0 (q + 1))
            else none
          | none => none
    else none
  | none => none

/-- The bare alternative `[^\s]+` of the comparison right-hand side,
followed by `\s*$`. -/
def opNonWsAlt (l : List Char) (p0 : Nat) : Option (List Char) :=
  let m := nonWsRunL (l.drop p0)
  if m = 0 then none
  else if allWsL (l.drop (p0 + m)) then some (sliceL l p0 (p0 + m)) else none

/-- The comparison right-hand side `(['"].*?['"]|[^\s]+)\s*$` after a
greedy `\s*` (deterministic: both alternatives start with a
non-whitespace character). -/
def opRight (l : List Char) (pos : Nat) : Option (List Char) :=
  let p0 := pos + wsRunL (l.drop pos)
  match opQuoteAlt l p0 with
  | some r => some r
  | none => opNonWsAlt l p0

/-- After a candidate left capture ending at `pos`: the greedy `\s*`,
then the operator alternatives in source order, then the right-hand
side; an operator alternative is kept only if the rest of the pattern
succeeds after it. -/
def opContinue (l : List Char) (pos : Nat) : Option (List Char × List Char) :=
  let opPos := pos + wsRunL (l.drop pos)
  condOps.findSome? fun op =>
    if startsWithL op (l.drop opPos) then
      match opRight l (opPos + op.length) with
      | some r => some (op, r)
      | none => none
    else none

/-- The single-comparison pattern
`/^\s*([^\s]+|\([^\)]+\))\s*(OPS)\s*(['"].*?['"]|[^\s]+)\s*$/`
applied to a condition: returns the three captures.  The left capture
tries the greedy `[^\s]+` (longest first, backtracking shorter), then
the parenthesised form `\([^\)]+\)` (whose extent, up to the first
close parenthesis, is deterministic). -/
def opRegexMatchL (l : List Char) : Option (List Char × List Char × List Char) :=
  let w := wsRunL l
  let m := nonWsRunL (l.drop w)
  let alt1 := (List.range m).findSome? fun d =>
    let len := m - d
    match opContinue l (w + len) with
    | some (op, r) => some (sliceL l w (w + len), op, r)
    | none => none
  match alt1 with
  | some r => some r
  | none =>
    if charAt? l w = some '(' then
      match idxOfSubL [')'] (l.drop (w + 1)) with
      | some dd =>
        if dd = 0 then none
        else
          match opContinue l (w + 2 + dd) with
          | some (op, r) => some (sliceL l w (w + 2 + dd), op, r)
          | none => none
      | none => none
    else none

/-- Does the operator match `/^[<>]/` (the numeric-coercion guard)? -/
def opIsOrdering (op : List Char) : Bool :=
  match op with
  | c :: _ => c == '<' || c == '>'
  | [] => false

/-! ## Errors, and the writer/except result type of the evaluator -/

/-- A raised JavaScript error: a `Throwable` (name, message, optional
hint), a `TypeError` from calling a string method on a non-string, or
call-stack exhaustion (modelled by running out of fuel). -/
inductive JsErr where
  | thrown : String → String → Option String → JsErr
  | typeError : String → JsErr
  | stackOverflow : JsErr
  deriving Repr

/-- The `Throwable` constructor of `src/lib/Throwable.ts`: the hint is
deleted when it is falsy or blank. -/
def mkThrowable (name message hint : String) : JsErr :=
  .thrown name message (if (jsTrimL hint.data).isEmpty then none else some hint)

/-- Result of a run of the side-effect-free part of the evaluator: an
error, or a value together with the list of environment-variable names
looked up along the way (the observation log). -/
abbrev PRes (α : Type) := Except JsErr (α × List String)

/-- Return without observations. -/
def pret {α : Type} (a : α) : PRes α :=
  .ok (a, [])

/-- Record environment lookups. -/
def plog (names : List String) : PRes Unit :=
  .ok ((), names)

/-- Sequencing that accumulates the observation log. -/
def pbind {α β : Type} : PRes α → (α → PRes β) → PRes β
  | .error e, _ => .error e
  | .ok (a, l1), f =>
    match f a with
    | .error e => .error e
    | .ok (b, l2) => .ok (b, l1 ++ l2)

/-! ## Property access and `#resolveConfigPath` -/

/-- A canonical array index: a non-empty digit string with no leading
zero (except `0` itself), i.e. exactly `Nat.repr i` for some `i`. -/
def parseCanonicalNat? (l : List Char) : Option Nat :=
  if l.isEmpty then none
  else if l.length > 1 ∧ l.head? = some '0' then none
  else digitsToNat? digitVal? 10 l

/-- JavaScript property read `obj?.[key]` on the values the
configuration tree can hold: own properties of plain objects, indices
and `length` of arrays and strings; every other base (or absent key)
gives `undefined`.  Inherited prototype members are runtime library
functions, not configuration data, and are outside this model. -/
def jsGetProp (v : JSVal) (key : String) : JSVal :=
  match v with
  | .vobj l =>
    (match l.find? (fun p => p.1 == key) with
     | some p => p.2
     | none => .undef)
  | .varr l =>
    if key == "length" then .vnum (l.length : Int)
    else
      (match parseCanonicalNat? key.data with
       | some i => (match l.drop i with
                    | x :: _ => x
                    | [] => .undef)
       | none => .undef)
  | .vstr s =>
    if key == "length" then .vnum (s.data.length : Int)
    else
      (match parseCanonicalNat? key.data with
       | some i => (match s.data.drop i with
                    | c :: _ => .vstr ⟨[c]⟩
                    | [] => .undef)
       | none => .undef)
  | _ => (.undef)

/-- `#resolveConfigPath`: reject empty or blank paths, then walk the
dot-separated segments by optional-chaining property reads. -/
def resolveConfigPath (cfg : JSVal) (path : String) : JSVal :=
  if (jsTrimL path.data).isEmpty then .undef
  else ((splitCharL '.' path.data).map List.asString).foldl jsGetProp cfg

/-- The process environment (`Bun.env`), an association of names to
string values. -/
abbrev EnvT := List (String × String)

/-- `Bun.env[name]`. -/
def envLookup (env : EnvT) (name : String) : Option String :=
  (env.find? (fun p => p.1 == name)).map (fun p => p.2)

/-- The `{{` delimiter. -/
def lbb : List Char := [lbraceC, lbraceC]

/-- The `}}` delimiter. -/
def rbb : List Char := [rbraceC, rbraceC]

/-- JavaScript `str.slice(2, -2)`. -/
def interior2L (l : List Char) : List Char :=
  ((l.drop 2).dropLast).dropLast

/-- The running combination loop of `evalLogical` (its lines walking
the token list with a running `result` and a pending `op`),
parameterised by the evaluation of an operand token: an operand
replaces the running result whenever that result is unset *or false*;
when the running result is true, a pending `and` evaluates and takes
the operand, a pending `or` returns true without looking at the
operand; the final answer is the running result, defaulting to false. -/
def logicalFold (ev : String → PRes Bool) :
    List String → Option Bool → Option String → PRes Bool
  | [], result, _ => pret (result.getD false)
  | tok :: rest, result, op =>
    if tok == "and" || tok == "or" then logicalFold ev rest result (some tok)
    else
      match result with
      | some true =>
        (match op with
         | some o =>
           if o == "and" then pbind (ev tok) fun b => logicalFold ev rest (some b) none
           else if o == "or" then pret true
           else logicalFold ev rest (some true) none
         | none => logicalFold ev rest (some true) none)
      | _ => pbind (ev tok) fun b => logicalFold ev rest (some b) none

/-! ## The directive evaluator

The six functions below are the mutually recursive core of
`Config.ts`: the four private methods `#resolveVariable`,
`#evaluateNullishCoalesce`, `#evaluateIfElseLogic` and
`#evaluateLogicBlock`, and the two closures `evalComparison` (with its
local `evaluate`, here `evalSide`) and `evalLogical` defined inside
`#evaluateIfElseLogic`.  The configuration tree and the environment
are fixed parameters; the fuel models the call stack. -/

mutual

/-- `#resolveVariable(variable)`. -/
def resolveVariable (cfg : JSVal) (env : EnvT) : Nat → String → PRes JSVal
  | 0, _ => .error .stackOverflow
  | fuel + 1, varname =>
    if ¬ startsWithL ['$'] varname.data = true then pret (.vstr varname)
    else
      let v := varname.data.drop 1
      if (jsTrimL v).isEmpty then pret .undef
      else
        let cfgVal := resolveConfigPath cfg v.asString
        let (value, lg) :=
          match cfgVal with
          | .undef =>
            (match envLookup env v.asString with
             | some s => (JSVal.vstr (jsTrimL s.data).asString, [v.asString])
             | none => (JSVal.undef, [v.asString]))
          | w => (w, ([] : List String))
        match value with
        | .vstr s =>
          if startsWithL lbb (jsTrimL s.data) && endsWithL rbb (jsTrimL s.data) then
            pbind (plog lg) fun _ =>
              evaluateLogicBlock cfg env fuel (jsTrimL s.data).asString
          else .ok (value, lg)
        | w => .ok (w, lg)
termination_by structural fuel => fuel

/-- `#evaluateNullishCoalesce(content)`. -/
def evaluateNullishCoalesce (cfg : JSVal) (env : EnvT) : Nat → String → PRes JSVal
  | 0, _ => .error .stackOverflow
  | fuel + 1, content =>
    match nullishSplitL content.data with
    | none => pret .undef
    | some (left0, right0) =>
      let l1 := trimParensL left0
      pbind (resolveVariable cfg env fuel (trimParensL l1).asString) fun lv0 =>
      let lv := if lv0.isNullish then JSVal.vstr "" else lv0
      if jsLooseEqF fuel lv (.vstr "") then
        let r1 := trimParensL right0
        pbind (resolveVariable cfg env fuel (trimParensL r1).asString) fun rv0 =>
        let rv := if rv0.isNullish then JSVal.vstr "" else rv0
        if jsLooseEqF fuel rv (.vstr "") then pret .undef else pret rv
      else pret lv
termination_by structural fuel => fuel

/-- `#evaluateIfElseLogic(content)`. -/
def evaluateIfElseLogic (cfg : JSVal) (env : EnvT) : Nat → String → PRes JSVal
  | 0, _ => .error .stackOverflow
  | fuel + 1, content =>
    match ifHeadMatchL content.data with
    | none => pret .undef
    | some (condition, condEnd) =>
      let tb := findBalancedParenBlockL content.data condEnd
      let afterTrue := jsTrimL (content.data.drop tb.2)
      if ¬ startsWithL "else".data afterTrue = true then pret .undef
      else
        let elseBlock := jsTrimL (afterTrue.drop 4)
        if startsWithL "if".data elseBlock then
          evaluateIfElseLogic cfg env fuel elseBlock.asString
        else if ¬ startsWithL ['('] elseBlock = true then pret .undef
        else
          let fb := findBalancedParenBlockL elseBlock 0
          let trueBlock := interiorL tb.1
          let falseBlock := interiorL fb.1
          pbind (evalLogical cfg env fuel condition.asString) fun conditionResult =>
          let branch := if conditionResult then trueBlock else falseBlock
          pbind (evaluateLogicBlock cfg env fuel
            ("\x7b\x7b " ++ (jsTrimL branch).asString ++ " \x7d\x7d")) fun r =>
          pret (trimQuotesV r)
termination_by structural fuel => fuel

/-- `#evaluateLogicBlock(input)`. -/
def evaluateLogicBlock (cfg : JSVal) (env : EnvT) : Nat → String → PRes JSVal
  | 0, _ => .error .stackOverflow
  | fuel + 1, input =>
    let trimmed := joinLinesL input.data
    if ¬ (startsWithL lbb trimmed && endsWithL rbb trimmed) = true then pret (.vstr input)
    else
      let content := (jsTrimL (interior2L trimmed)).asString
      pbind (evaluateNullishCoalesce cfg env fuel content) fun nullish =>
      if ¬ nullish.isUndef = true then pret (trimQuotesV nullish)
      else
        pbind (evaluateIfElseLogic cfg env fuel content) fun ifElse =>
        if ¬ ifElse.isUndef = true then pret (trimQuotesV ifElse)
        else pret (.vstr content)
termination_by structural fuel => fuel

/-- The local arrow function `evaluate` inside `evalComparison`: wrap
the parenthesis-stripped side in a directive block, evaluate it,
quote-trim, and resolve the result as a variable reference.  A
non-string result makes the `variable.startsWith` call a `TypeError`. -/
def evalSide (cfg : JSVal) (env : EnvT) : Nat → List Char → PRes JSVal
  | 0, _ => .error .stackOverflow
  | fuel + 1, str =>
    pbind (evaluateLogicBlock cfg env fuel
      ("\x7b\x7b " ++ (trimParensL str).asString ++ " \x7d\x7d")) fun b =>
    match trimQuotesV b with
    | .vstr s => resolveVariable cfg env fuel s
    | _ => .error (.typeError "variable.startsWith is not a function")
termination_by structural fuel => fuel

/-- The closure `evalComparison(cond)`. -/
def evalComparison (cfg : JSVal) (env : EnvT) : Nat → String → PRes Bool
  | 0, _ => .error .stackOverflow
  | fuel + 1, cond =>
    match opRegexMatchL (trimParensL cond.data) with
    | none => pret false
    | some (left0, op, right0) =>
      let left := trimQuotesL left0
      let right := trimQuotesL right0
      if ((jsTrimL left).isEmpty && !(jsTrimL right).isEmpty) ||
          (!(jsTrimL left).isEmpty && (jsTrimL right).isEmpty) then pret false
      else
        pbind (evalSide cfg env fuel left) fun lv =>
        pbind (evalSide cfg env fuel right) fun rv =>
        if opIsOrdering op then
          match jsToNumberF fuel lv, jsToNumberF fuel rv with
          | some a, some b =>
            if op == ['>'] then pret (decide (a > b))
            else if op == ['>', '='] then pret (decide (a ≥ b))
            else if op == ['<'] then pret (decide (a < b))
            else if op == ['<', '='] then pret (decide (a ≤ b))
            else pret false
          | _, _ => pret false
        else if op == "equals".data then pret (jsLooseEqF fuel lv rv)
        else if op == "startswith".data then
          pret (startsWithL (jsToStringF fuel rv).data (jsToStringF fuel lv).data)
        else if op == "endswith".data then
          pret (endsWithL (jsToStringF fuel rv).data (jsToStringF fuel lv).data)
        else if op == "contains".data then
          pret (containsSubL (jsToStringF fuel rv).data (jsToStringF fuel lv).data)
        else pret false
termination_by structural fuel => fuel

/-- The closure `evalLogical(cond)`. -/
def evalLogical (cfg : JSVal) (env : EnvT) : Nat → String → PRes Bool
  | 0, _ => .error .stackOverflow
  | fuel + 1, cond =>
    let condL := jsTrimL cond.data
    if startsWithL ['('] condL && endsWithL [')'] condL && pbwLoop condL 0 then
      evalLogical cfg env fuel (interiorL condL).asString
    else if notKeywordTest condL then
      pbind (evalLogical cfg env fuel (notKeywordStrip condL).asString) fun b => pret (!b)
    else
      match tokenizeConditionL condL with
      | [t] => evalComparison cfg env fuel t.asString
      | tokens => logicalFold (evalLogical cfg env fuel) (tokens.map List.asString) none none
termination_by structural fuel => fuel

end

/-! ## Instance state and the memoized resolution layer -/

/-- The mutable state of one `Config` instance: the configuration tree
(`#config`), the process environment, the memo cache (`#bank`, whose
entries with value `undefined` are the in-flight sentinel), the
dependency map (`#dependencies`), and the observation log of
environment lookups performed so far. -/
structure St where
  config : JSVal
  env : EnvT
  bank : List (String × JSVal)
  deps : List (String × List String)
  log : List String

/-- Append environment-lookup observations. -/
def St.addLog (st : St) (lg : List String) : St :=
  ⟨st.config, st.env, st.bank, st.deps, st.log ++ lg⟩

/-- A stateful evaluation: errors propagate, discarding nothing the
caller cannot see (the state travels only along successful steps). -/
abbrev EvalM (α : Type) := St → Except JsErr (α × St)

/-- Return. -/
def mret {α : Type} (a : α) : EvalM α := fun st => .ok (a, st)

/-- `Map.prototype.has`. -/
def bankHas (b : List (String × JSVal)) (k : String) : Bool :=
  b.any (fun p => p.1 == k)

/-- `Map.prototype.get`, which yields `undefined` both for an absent
key and for a key stored with the sentinel. -/
def bankGet (b : List (String × JSVal)) (k : String) : JSVal :=
  match b.find? (fun p => p.1 == k) with
  | some p => p.2
  | none => (.undef)

/-- The raw cache lookup distinguishing an absent key (`none`) from a
key stored with the sentinel (`some undefined`), used to state the
write-once invariant of the memo cache. -/
def bankFind (b : List (String × JSVal)) (k : String) : Option JSVal :=
  (b.find? (fun p => p.1 == k)).map (fun p => p.2)

/-- `Map.prototype.set`: replace in place, else append (JavaScript
maps keep the original insertion position on overwrite). -/
def assocSet {α : Type} : List (String × α) → String → α → List (String × α)
  | [], k, v => [(k, v)]
  | p :: rest, k, v => if p.1 == k then (k, v) :: rest else p :: assocSet rest k v

/-- `Set.prototype.add` folded over a list: append if absent. -/
def addUnique (l : List String) (x : String) : List String :=
  if l.contains x then l else l ++ [x]

/-- The dependency-recording step: merge the chain into the set stored
for the variable. -/
def depsAdd (d : List (String × List String)) (k : String) (chain : List String) :
    List (String × List String) :=
  let cur := match d.find? (fun p => p.1 == k) with
             | some p => p.2
             | none => []
  assocSet d k (chain.foldl addUnique cur)

/-- Lines 274–282 of `#resolveVariableChain`: read the cached value,
record the chain as dependencies when it is non-empty, and return the
cached value, or the original text when the cache holds the
sentinel. -/
def chainFinish (str varname : String) (chain : List String) (st : St) :
    Except JsErr (JSVal × St) :=
  let cached := bankGet st.bank varname
  let st' := if chain.isEmpty then st
             else ⟨st.config, st.env, st.bank, depsAdd st.deps varname chain, st.log⟩
  if cached.isUndef then .ok (.vstr str, st')
  else .ok (cached, st')

/-- What one call of the resolution cluster may do to the instance
state: the configuration tree and the environment are read-only, every
cache entry holding a real (non-sentinel) value is preserved exactly,
and the entries of the paths currently on the resolution chain are not
touched at all (they keep their in-flight sentinel). -/
def chainInv (chain : List String) (st st' : St) : Prop :=
  st'.config = st.config ∧ st'.env = st.env ∧
  (∀ q w, w ≠ JSVal.undef → bankFind st.bank q = some w → bankFind st'.bank q = some w) ∧
  (∀ q, q ∈ chain → bankFind st'.bank q = bankFind st.bank q)

/-- A piece of a string value under variable substitution: a literal
run, or a matched reference `$name` (the name captured without the
sigil).  Produced by the scan of the global regexp
`/\$([a-zA-Z_][a-zA-Z0-9_\.]*)/g`. -/
inductive VarSeg where
  | lit : List Char → VarSeg
  | ref : List Char → VarSeg

/-- The scan for the global variable-reference regexp: at every
position, a match requires `$` followed by a name-start character;
the name extends greedily over the name class. -/
def varSegGo : Nat → List Char → List VarSeg
  | 0, l => if l.isEmpty then [] else [.lit l]
  | _, [] => []
  | fuel + 1, '$' :: rest =>
    (match rest with
     | c :: cs =>
       if isVarStart c then
         let name := c :: cs.takeWhile isVarChar
         .ref name :: varSegGo fuel (cs.drop (name.length - 1))
       else .lit ['$'] :: varSegGo fuel rest
     | [] => [.lit ['$']])
  | fuel + 1, c :: rest => .lit [c] :: varSegGo fuel rest

/-- Split a string into literal runs and `$name` matches. -/
def varSegments (l : List Char) : List VarSeg :=
  varSegGo (l.length + 1) l

/-- The scan for the global directive regexp `/(\{\{[\s\S]+?\}\})/mg`:
each leftmost `{{`, with a lazy body of at least one character up to
the first `}}`, is passed to the callback, whose result replaces the
match; the replacement is not rescanned.  The callback returns the
replacement characters together with its observation log. -/
def replaceBlocksGo (elb : String → PRes (List Char)) : Nat → List Char → PRes (List Char)
  | 0, l => pret l
  | _, [] => pret []
  | budget + 1, c :: rest =>
    if c == lbraceC && startsWithL [lbraceC] rest then
      match idxOfSubL rbb (rest.drop 2) with
      | some j =>
        pbind (elb ((c :: rest).take (j + 5)).asString) fun out =>
        pbind (replaceBlocksGo elb budget ((c :: rest).drop (j + 5))) fun tail =>
        pret (out ++ tail)
      | none =>
        pbind (replaceBlocksGo elb budget rest) fun tail => pret (c :: tail)
    else
      pbind (replaceBlocksGo elb budget rest) fun tail => pret (c :: tail)

mutual

/-- `#resolveVariableChain(str, variable, chain)`: the cycle-guarded,
memoizing entry point of variable resolution. -/
def resolveVariableChain : Nat → String → String → List String → EvalM JSVal
  | 0, _, _, _ => fun _ => .error .stackOverflow
  | fuel + 1, str, varname, chain => fun st =>
    if varname == "" then .ok (.vstr str, st)
    else if chain.contains varname then
      .error (mkThrowable "ReferenceError" "Circular dependency detected"
        (joinWith " -> " (chain ++ [varname])))
    else if bankHas st.bank varname then
      chainFinish str varname chain st
    else
      let st1 : St := ⟨st.config, st.env, assocSet st.bank varname .undef, st.deps, st.log⟩
      match resolveVariable st1.config st1.env fuel ("$" ++ varname) with
      | .error e => .error e
      | .ok (configValue, lg) =>
        let st2 := st1.addLog lg
        if configValue.isUndef then .ok (.vstr str, st2)
        else
          match translateVariables fuel configValue (chain ++ [varname]) st2 with
          | .error e => .error e
          | .ok (formatted, st3) =>
            chainFinish str varname chain
              ⟨st3.config, st3.env, assocSet st3.bank varname formatted, st3.deps, st3.log⟩
termination_by structural fuel => fuel

/-- `#translateVariables(value, chain)`: strings have their directive
blocks evaluated in place, then either resolve as one whole reference
(the anchored full match whose removal leaves only whitespace) or have
every embedded reference substituted and the result passed through
primitive coercion; arrays translate element-wise; everything else
passes through primitive coercion. -/
def translateVariables : Nat → JSVal → List String → EvalM JSVal
  | 0, _, _ => fun _ => .error .stackOverflow
  | fuel + 1, value, chain => fun st =>
    match value with
    | .vstr s =>
      match replaceBlocksGo
          (fun b => pbind (evaluateLogicBlock st.config st.env fuel b) fun r =>
            pret (jsToStringF fuel r).data)
          (s.data.length + 1) s.data with
      | .error e => .error e
      | .ok (v1, lg) =>
        let st1 := st.addLog lg
        match fullVarMatchL s.data with
        | some nameL =>
          if (jsTrimL (removeFirstSubL s.data v1)).isEmpty then
            resolveVariableChain fuel s nameL.asString chain st1
          else
            (match replaceVarSegs fuel (varSegments v1) chain st1 with
             | .error e => .error e
             | .ok (v2, st2) => .ok (parsePrimitiveValue (.vstr v2.asString), st2))
        | none =>
          (match replaceVarSegs fuel (varSegments v1) chain st1 with
           | .error e => .error e
           | .ok (v2, st2) => .ok (parsePrimitiveValue (.vstr v2.asString), st2))
    | .varr l =>
      (match translateListGo fuel l chain st with
       | .error e => .error e
       | .ok (l', st') => .ok (.varr l', st'))
    | w => .ok (parsePrimitiveValue w, st)
termination_by structural fuel => fuel

/-- Walk the segments of the global reference substitution: literal
runs are copied; each matched `$name` is resolved through the chain
and its result coerced to text (`String(...)`, as the `replace`
callback coercion does). -/
def replaceVarSegs : Nat → List VarSeg → List String → EvalM (List Char)
  | _, [], _ => mret []
  | 0, _ :: _, _ => fun _ => .error .stackOverflow
  | fuel + 1, .lit l :: rest, chain => fun st =>
    (match replaceVarSegs fuel rest chain st with
     | .error e => .error e
     | .ok (tail, st') => .ok (l ++ tail, st'))
  | fuel + 1, .ref name :: rest, chain => fun st =>
    match resolveVariableChain fuel ("$" ++ name.asString) name.asString chain st with
    | .error e => .error e
    | .ok (r, st') =>
      match replaceVarSegs fuel rest chain st' with
      | .error e => .error e
      | .ok (tail, st'') => .ok ((jsToStringF fuel r).data ++ tail, st'')
termination_by structural fuel => fuel

/-- `value.map(val => this.#translateVariables(val, chain))`. -/
def translateListGo : Nat → List JSVal → List String → EvalM (List JSVal)
  | _, [], _ => mret []
  | 0, _ :: _, _ => fun _ => .error .stackOverflow
  | fuel + 1, v :: rest, chain => fun st =>
    match translateVariables fuel v chain st with
    | .error e => .error e
    | .ok (v', st') =>
      match translateListGo fuel rest chain st' with
      | .error e => .error e
      | .ok (l', st'') => .ok (v' :: l', st'')
termination_by structural fuel => fuel

end

/-! ## The public facade: `get`, `raw` -/

/-- JavaScript `arr[i] = v` for a canonical index: set in bounds, or
extend with holes (which read back as `undefined`). -/
def arrSet : List JSVal → Nat → JSVal → List JSVal
  | [], 0, v => [v]
  | [], n + 1, v => .undef :: arrSet [] n v
  | _ :: rest, 0, v => v :: rest
  | x :: rest, n + 1, v => x :: arrSet rest n v

/-- JavaScript strict-mode property write `base[k] = v` as observable
through this model's reads: plain objects store; arrays store at
canonical indices (named array properties are invisible to the reads
modelled here and change nothing); writing into a primitive or a
missing base throws a `TypeError`. -/
def setProp (root : JSVal) (k : String) (v : JSVal) : Except JsErr JSVal :=
  match root with
  | .vobj l => .ok (.vobj (assocSet l k v))
  | .varr l =>
    (match parseCanonicalNat? k.data with
     | some i => .ok (.varr (arrSet l i v))
     | none => .ok (.varr l))
  | _ => .error (.typeError "cannot create a property on a primitive value")

/-- The insertion loop shared by `get` and `raw`: walk the path
segments from the output root, descending into the existing value when
it is truthy and installing a fresh empty object otherwise, and assign
the translated value at the last segment. -/
def insertPath : JSVal → List String → JSVal → Except JsErr JSVal
  | root, [], _ => .ok root
  | root, [last], v => setProp root last v
  | root, p :: rest, v =>
    let child0 := jsGetProp root p
    let child := if truthy child0 then child0 else .vobj []
    match setProp root p child with
    | .error e => .error e
    | .ok root1 =>
      match insertPath child rest v with
      | .error e => .error e
      | .ok child' => setProp root1 p child'

/-- The key loop of `get`: translate each requested path's raw value,
skip the absent ones, and insert the rest at their dotted position. -/
def getGo (fuel : Nat) : List String → JSVal → EvalM JSVal
  | [], result => mret result
  | key :: rest, result => fun st =>
    match translateVariables fuel (resolveConfigPath st.config key) [] st with
    | .error e => .error e
    | .ok (value, st') =>
      if value.isUndef then getGo fuel rest result st'
      else
        match insertPath result ((splitCharL '.' key.data).map List.asString) value with
        | .error e => .error e
        | .ok result' => getGo fuel rest result' st'

/-- `get(...keys)`. -/
def get (fuel : Nat) (keys : List String) : EvalM JSVal :=
  getGo fuel keys (.vobj [])

/-- The key loop of `raw`: identical assembly, but the stored value is
used untranslated. -/
def rawGo : List String → JSVal → EvalM JSVal
  | [], result => mret result
  | key :: rest, result => fun st =>
    let value := resolveConfigPath st.config key
    if value.isUndef then rawGo rest result st
    else
      match insertPath result ((splitCharL '.' key.data).map List.asString) value with
      | .error e => .error e
      | .ok result' => rawGo rest result' st

/-- `raw(...keys)`. -/
def raw (keys : List String) : EvalM JSVal :=
  rawGo keys (.vobj [])

/-- `Utils.ensureObject(config, {})` in the constructor: any
non-object input is replaced by an empty tree (`typeof` counts arrays
as objects and excludes `null`). -/
def configInit : JSVal → JSVal
  | .vobj l => .vobj l
  | .varr l => .varr l
  | _ => .vobj []

/-- A freshly constructed `Config` instance over a deserialized tree
and a process environment: empty memo cache, empty dependency map,
empty observation log. -/
def Config.new (tree : JSVal) (env : EnvT) : St :=
  ⟨configInit tree, env, [], [], []⟩

/-! ## Characterisations used by the theorems -/

/-- The position at which the scanner of `findBalancedParenBlock`
stops, relative to its start offset: the least index at which an
opening parenthesis has been seen and the running depth is zero
(`none` when there is no such index). -/
def stopIdx : Int → Bool → List Char → Option Nat
  | _, _, [] => none
  | d, st, c :: rest =>
    let d1 := d + (if c == '(' then 1 else 0)
    let st1 := st || c == '('
    let d2 := d1 - (if c == ')' then 1 else 0)
    if st1 && d2 == 0 then some 0 else (stopIdx d2 st1 rest).map (· + 1)

/-- The output structure that one requested dotted path implies, in
the specification's words: nest the translated value under the path's
segments, innermost last. -/
def specNest (parts : List String) (v : JSVal) : JSVal :=
  parts.foldr (fun p acc => .vobj [(p, acc)]) v

/-! ## The content fingerprint

`hash()` serialises the raw tree (`JSON.stringify`) and digests it
(`Bun.hash`); both are runtime builtins outside `src/`.  Modelled from
the spec: the fingerprint interface promises a deterministic string
derived from the canonical serialisation of the full raw tree, with
equal trees receiving equal fingerprints and trees that differ in a
leaf receiving different ones, so the serialise-and-digest pipeline is
modelled as one deterministic injective encoding of the tree. -/

/-- Structural weight of a value (bounds the recursion of the
encoder).  Used only in proofs and as a fuel bound, never evaluated by
a witness. -/
def sizeW : JSVal → Nat
  | .undef => 1
  | .vnull => 1
  | .vbool _ => 1
  | .vnum _ => 1
  | .vstr _ => 1
  | .varr l => 1 + (l.attach.map (fun x => sizeW x.1)).sum
  | .vobj l => 1 + (l.attach.map (fun x => sizeW x.1.2)).sum
decreasing_by
  · obtain ⟨e, he⟩ := x
    have h := List.sizeOf_lt_of_mem he
    simp only [JSVal.varr.sizeOf_spec]
    omega
  · obtain ⟨⟨a, b⟩, he⟩ := x
    have h := List.sizeOf_lt_of_mem he
    simp only [Prod.mk.sizeOf_spec] at h
    simp only [JSVal.vobj.sizeOf_spec]
    omega

/-- A natural number in binary, least significant bit first, closed by
a `z`: a prefix-free code. -/
def natCharsGo : Nat → Nat → List Char
  | 0, _ => []
  | f + 1, n =>
    if n = 0 then ['z']
    else (if n % 2 = 1 then '1' else '0') :: natCharsGo f (n / 2)

/-- Encode a natural number. -/
def natChars (n : Nat) : List Char :=
  natCharsGo (n + 1) n

/-- Decode a natural number back. -/
def decodeNat : List Char → Option (Nat × List Char)
  | 'z' :: r => some (0, r)
  | '0' :: r => (decodeNat r).map (fun p => (2 * p.1, p.2))
  | '1' :: r => (decodeNat r).map (fun p => (2 * p.1 + 1, p.2))
  | _ => none

/-- Encode an integer: a sign character, then the magnitude. -/
def intChars (z : Int) : List Char :=
  (if z < 0 then '-' else '+') :: natChars z.natAbs

/-- The tree encoder: a tag character per constructor,
length-prefixed strings, counted containers.  The fuel is inspected
only to recurse into containers. -/
def encF (fuel : Nat) (v : JSVal) : List Char :=
  match v with
  | .undef => ['u']
  | .vnull => ['n']
  | .vbool b => ['b', if b then 't' else 'f']
  | .vnum q => 'q' :: (intChars q.num ++ natChars q.den)
  | .vstr s => 's' :: (natChars s.data.length ++ s.data)
  | .varr l =>
    (match fuel with
     | 0 => []
     | fuel + 1 => 'a' :: (natChars l.length ++ (l.map (encF fuel)).flatten))
  | .vobj l =>
    (match fuel with
     | 0 => []
     | fuel + 1 =>
       'o' :: (natChars l.length ++
         (l.map (fun p => natChars p.1.data.length ++ p.1.data ++ encF fuel p.2)).flatten))

/-- Encode a tree (the structural weight is enough fuel). -/
def encV (v : JSVal) : List Char :=
  encF (sizeW v) v

/-- Take exactly `k` characters, or fail. -/
def decTake (k : Nat) (l : List Char) : Option (List Char × List Char) :=
  if l.length < k then none else some (l.take k, l.drop k)

mutual

/-- The decoder for `encF`, witnessing that the encoding is
prefix-free (used only in proofs). -/
def decGo : Nat → List Char → Option (JSVal × List Char)
  | 0, _ => none
  | fuel + 1, l =>
    match l with
    | 'u' :: r => some (.undef, r)
    | 'n' :: r => some (.vnull, r)
    | 'b' :: 't' :: r => some (.vbool true, r)
    | 'b' :: 'f' :: r => some (.vbool false, r)
    | 'q' :: sgn :: r =>
      if sgn = '-' ∨ sgn = '+' then
        match decodeNat r with
        | some (a, r1) =>
          (match decodeNat r1 with
           | some (d, r2) =>
             some (.vnum (((if sgn = '-' then -(a : Int) else (a : Int)) : ℚ) / ((d : Int) : ℚ)), r2)
           | none => none)
        | none => none
      else none
    | 's' :: r =>
      (match decodeNat r with
       | some (k, r1) =>
         (match decTake k r1 with
          | some (sc, r2) => some (.vstr sc.asString, r2)
          | none => none)
       | none => none)
    | 'a' :: r =>
      (match decodeNat r with
       | some (k, r1) =>
         (match decList fuel k r1 with
          | some (items, r2) => some (.varr items, r2)
          | none => none)
       | none => none)
    | 'o' :: r =>
      (match decodeNat r with
       | some (k, r1) =>
         (match decPairs fuel k r1 with
          | some (items, r2) => some (.vobj items, r2)
          | none => none)
       | none => none)
    | _ => none
termination_by structural fuel => fuel

/-- Decode `k` array items. -/
def decList : Nat → Nat → List Char → Option (List JSVal × List Char)
  | 0, _, _ => none
  | _ + 1, 0, r => some ([], r)
  | fuel + 1, k + 1, r =>
    match decGo fuel r with
    | some (v, r1) =>
      (match decList fuel k r1 with
       | some (items, r2) => some (v :: items, r2)
       | none => none)
    | none => none
termination_by structural fuel => fuel

/-- Decode `k` object entries. -/
def decPairs : Nat → Nat → List Char → Option (List (String × JSVal) × List Char)
  | 0, _, _ => none
  | _ + 1, 0, r => some ([], r)
  | fuel + 1, k + 1, r =>
    match decodeNat r with
    | some (kl, r1) =>
      (match decTake kl r1 with
       | some (kc, r2) =>
         (match decGo fuel r2 with
          | some (v, r3) =>
            (match decPairs fuel k r3 with
             | some (items, r4) => some ((kc.asString, v) :: items, r4)
             | none => none)
          | none => none)
       | none => none)
    | none => none
termination_by structural fuel => fuel

end

/-- The fingerprint of a tree.  Modelled from the spec: it stands for
`Bun.hash(JSON.stringify(tree, void 0, 2)).toString(16)`, whose
serialisation and digest are runtime builtins outside `src/`; the
spec's fingerprint interface requires a deterministic string with
distinct values for trees differing in content, which this injective
encoding provides. -/
def fingerprint (v : JSVal) : String :=
  (encV v).asString

/-- `hash()`: a function of the raw tree alone. -/
def hashModel (st : St) : String :=
  fingerprint st.config

/-- A call against the public facade, for the access-history
statements: a `get` (with its stack budget), a `raw`, or a `hash`. -/
inductive COp where
  | cget : Nat → List String → COp
  | craw : List String → COp
  | chash : COp

/-- Run one call for its state effect.  A call that throws leaves the
state it had reached; since no call ever writes the tree component
(the only input of `hash`), keeping the entry state on failure loses
nothing the fingerprint facts could observe. -/
def runOp (st : St) : COp → St
  | .cget fuel keys =>
    (match get fuel keys st with
     | .ok (_, st') => st'
     | .error _ => st)
  | .craw keys =>
    (match raw keys st with
     | .ok (_, st') => st'
     | .error _ => st)
  | .chash => st

/-- Run a sequence of calls. -/
def runOps (st : St) (ops : List COp) : St :=
  ops.foldl runOp st

/-!
# Theorems

The development below settles, against the model above, the claims the
specification makes about the evaluator.
-/

/-! ## The block scanner (`findBalancedParenBlock`) -/

/-- The scanner's loop accumulates everything it has walked over
(including characters before the first parenthesis) and stops at the
position described by `stopIdx`. -/
theorem fbpbLoop_spec (l : List Char) :
    ∀ (i : Nat) (d : Int) (st : Bool) (b : List Char),
      fbpbLoop l i d st b =
        match stopIdx d st l with
        | some k => (b ++ l.take (k + 1), i + k + 1)
        | none => (b ++ l, i + l.length + 1) := by
  induction l with
  | nil => intro i d st b; simp [fbpbLoop, stopIdx]
  | cons c rest ih =>
    intro i d st b
    rw [fbpbLoop, stopIdx]
    have e1 : (if c == '(' then d + 1 else d) = d + (if c == '(' then 1 else 0) := by
      by_cases h : (c == '(') = true <;> simp [h]
    have e2 : (if c == '(' then true else st) = (st || c == '(') := by
      by_cases h : (c == '(') = true <;> simp [h]
    rw [e1, e2]
    set d2 : Int := (if c == ')' then (d + if c == '(' then 1 else 0) - 1
                     else (d + if c == '(' then 1 else 0)) with hd2
    have e3 : d2 = (d + (if c == '(' then 1 else 0)) - (if c == ')' then 1 else 0) := by
      by_cases h : (c == ')') = true <;> simp [hd2, h]
    rw [← e3]
    set st1 : Bool := st || (c == '(') with hst1
    by_cases hbr : (st1 && d2 == 0) = true
    · rw [if_pos hbr, if_pos hbr]
      simp
    · rw [if_neg hbr, if_neg hbr, ih]
      cases h : stopIdx d2 st1 rest with
      | none => simp [h]; omega
      | some k =>
        simp only [h, Option.map_some']
        rw [List.take_succ_cons]
        simp only [Prod.mk.injEq]
        refine ⟨by simp, by omega⟩

/-- C6, counterexample: on `"x(y)"` from offset `0` the scanner
returns the substring from the start offset, not from the first `(`;
and with no parenthesis in `"ab"` it returns the offset
`length + 1 = 3`, not the end-of-string offset `2`. -/
theorem findBalancedParenBlock_claim_counterexample :
    findBalancedParenBlockL "x(y)".data 0 = ("x(y)".data, 4) ∧
    findBalancedParenBlockL "x(y)".data 0 ≠ ("(y)".data, 4) ∧
    findBalancedParenBlockL "ab".data 0 = ("ab".data, 3) ∧
    findBalancedParenBlockL "ab".data 0 ≠ ("ab".data, 2) := by
  refine ⟨rfl, by decide, rfl, by decide⟩

/-- C6, amended: for every input string and start offset, the scanner
tracks nested-parenthesis depth and returns the substring of the input
from the start offset (not from the first `(`) through the first
position at which an opening parenthesis has been seen and the
running depth is zero, together with the offset immediately after that
position; if there is no such position (no `(` before the string
ends, or unbalanced parentheses), it returns the whole remainder from
the start offset together with the string length plus one. -/
theorem findBalancedParenBlock_amended (l : List Char) (startIdx : Nat) :
    findBalancedParenBlockL l startIdx =
      match stopIdx 0 false (l.drop startIdx) with
      | some k => ((l.drop startIdx).take (k + 1), startIdx + k + 1)
      | none => (l.drop startIdx, startIdx + (l.drop startIdx).length + 1) := by
  rw [findBalancedParenBlockL, fbpbLoop_spec]
  cases h : stopIdx 0 false (l.drop startIdx) <;> simp [h]

/-! ## Nullish coalescing (claim C3) -/

/-- C3, counterexample: evaluating the directive block
`{{ "" ?? "fallback" }}` yields the empty string, not `"fallback"`:
the quoted empty string is, as a token, loosely non-empty, so the left
side is selected and only then quote-trimmed to nothing. -/
theorem nullish_quoted_empty_counterexample :
    evaluateLogicBlock (.vobj []) [] 8 "\x7b\x7b \"\" ?? \"fallback\" \x7d\x7d"
      = .ok (.vstr "", []) ∧
    evaluateLogicBlock (.vobj []) [] 8 "\x7b\x7b \"\" ?? \"fallback\" \x7d\x7d"
      ≠ .ok (.vstr "fallback", []) := by
  refine ⟨rfl, ?_⟩
  intro h
  rw [show evaluateLogicBlock (.vobj []) [] 8 "\x7b\x7b \"\" ?? \"fallback\" \x7d\x7d"
      = .ok (.vstr "", []) from rfl] at h
  simp at h

/-- C3, amended: `{{ "" ?? "fallback" }}` evaluates to the empty
string (the quoted empty string is a non-empty token, so the left side
wins and is then quote-trimmed); `{{ "x" ?? "fallback" }}` evaluates
to `"x"`; a left side that genuinely resolves to nothing, such as an
unresolvable reference, does fall through to the right side. -/
theorem nullish_examples_amended :
    evaluateLogicBlock (.vobj []) [] 8 "\x7b\x7b \"\" ?? \"fallback\" \x7d\x7d"
      = .ok (.vstr "", []) ∧
    evaluateLogicBlock (.vobj []) [] 8 "\x7b\x7b \"x\" ?? \"fallback\" \x7d\x7d"
      = .ok (.vstr "x", []) ∧
    evaluateLogicBlock (.vobj []) [] 8 "\x7b\x7b $missing ?? \"fallback\" \x7d\x7d"
      = .ok (.vstr "fallback", ["missing"]) :=
  ⟨rfl, rfl, rfl⟩

/-! ## The left-to-right `and`/`or` combination (claim C1) -/

/-- C1, counterexample: in the chain `(1 > 2) and (2 > 1)` the running
result after the first operand is false, yet the whole condition
evaluates to true — a false running result followed by `and X` is
re-seeded with `X` instead of short-circuiting to false — so the
conditional takes its then-branch. -/
theorem and_chain_counterexample :
    evalLogical (.vobj []) [] 10 "(1 > 2)" = .ok (false, []) ∧
    evalLogical (.vobj []) [] 10 "(1 > 2) and (2 > 1)" = .ok (true, []) ∧
    evaluateLogicBlock (.vobj []) [] 10
        "\x7b\x7b if ((1 > 2) and (2 > 1)) then (y) else (n) \x7d\x7d"
      = .ok (.vstr "y", []) :=
  ⟨rfl, rfl, rfl⟩

/-- C1, amended: the token chain is combined strictly left to right
with these rules — the first operand seeds the running result; when
the running result is false (or unset), the next operand *replaces*
the running result regardless of the pending operator (in particular,
a false running result followed by `and X` evaluates to `X`, not to
false); when the running result is true, a pending `and` evaluates the
next operand and takes its value, and a pending `or` short-circuits to
true without evaluating the operand at all. -/
theorem logicalFold_amended (ev : String → PRes Bool) (A X : String)
    (la lx : List String) (b : Bool)
    (hA1 : A ≠ "and") (hA2 : A ≠ "or") (hX1 : X ≠ "and") (hX2 : X ≠ "or") :
    (ev A = .ok (false, la) → ev X = .ok (b, lx) →
      logicalFold ev [A, "and", X] none none = .ok (b, la ++ lx)) ∧
    (ev A = .ok (true, la) → ev X = .ok (b, lx) →
      logicalFold ev [A, "and", X] none none = .ok (b, la ++ lx)) ∧
    (ev A = .ok (true, la) →
      logicalFold ev [A, "or", X] none none = .ok (true, la)) ∧
    (ev A = .ok (false, la) → ev X = .ok (b, lx) →
      logicalFold ev [A, "or", X] none none = .ok (b, la ++ lx)) := by
  have hA : (A == "and" || A == "or") = false := by
    simp [hA1, hA2]
  have hX : (X == "and" || X == "or") = false := by
    simp [hX1, hX2]
  refine ⟨fun h1 h2 => ?_, fun h1 h2 => ?_, fun h1 => ?_, fun h1 h2 => ?_⟩ <;>
    simp [logicalFold, pbind, pret, hA, hX, h1, *]

/-- C1, witness for the amended combination rules, at the concrete
chain of the counterexample. -/
theorem logicalFold_amended_witness :
    logicalFold (evalLogical (.vobj []) [] 10) ["(1 > 2)", "and", "(2 > 1)"] none none
      = .ok (true, []) := by
  have h := (logicalFold_amended (evalLogical (.vobj []) [] 10) "(1 > 2)" "(2 > 1)"
    [] [] true (by decide) (by decide) (by decide) (by decide)).1 rfl rfl
  simpa using h

/-! ## The emptiness check of a comparison (claim C5) -/

/-- C5, counterexample: in `a contains $e`, with `e` an environment
variable holding the empty string, the right side resolves to the
empty string and the left side to the non-empty `"a"`, yet the
comparison evaluates to true (`"a".includes("")`); the emptiness
test happens before resolution, not after. -/
theorem comparison_empty_after_resolution_counterexample :
    evalSide (.vobj []) [("e", "")] 9 "$e".data = .ok (.vstr "", ["e"]) ∧
    evalSide (.vobj []) [("e", "")] 9 "a".data = .ok (.vstr "a", []) ∧
    evalComparison (.vobj []) [("e", "")] 10 "a contains $e" = .ok (true, ["e"]) :=
  ⟨rfl, rfl, rfl⟩

/-- C5, amended: the false-on-one-empty-side rule applies *before*
resolution: when the comparison pattern matches and, after quote
trimming only (no directive evaluation, no variable resolution),
exactly one captured side is blank, the comparison is false without
either side being resolved; after resolution no emptiness check is
made. -/
theorem evalComparison_amended (cfg : JSVal) (env : EnvT) (fuel : Nat) (cond : String)
    (l0 op r0 : List Char)
    (hm : opRegexMatchL (trimParensL cond.data) = some (l0, op, r0))
    (he : (((jsTrimL (trimQuotesL l0)).isEmpty && !(jsTrimL (trimQuotesL r0)).isEmpty) ||
           (!(jsTrimL (trimQuotesL l0)).isEmpty && (jsTrimL (trimQuotesL r0)).isEmpty)) = true) :
    evalComparison cfg env (fuel + 1) cond = .ok (false, []) := by
  rw [evalComparison, hm]
  simp only [he, if_pos]
  rfl

/-- C5, witness: `'' equals x` has a blank left capture and a
non-blank right capture, and is false before anything resolves. -/
theorem evalComparison_amended_witness :
    evalComparison (.vobj []) [] 10 "'' equals x" = .ok (false, []) :=
  evalComparison_amended (.vobj []) [] 9 "'' equals x"
    "''".data "equals".data "x".data rfl rfl

/-! ## Fallback to literal text (claim C7) -/

/-- C7: the block evaluator, on input whose trimmed line-joined form
is not wrapped in double braces, returns the original input unchanged
and raises nothing; and on wrapped input for which both the
nullish-coalescing strategy and the if/then/else strategy yield no
result (`undefined` — which for the conditional strategy happens
exactly on structural failures such as a missing `else` continuation
or missing parenthesization, before any condition is evaluated), it
returns the raw trimmed inner content verbatim and raises nothing. -/
theorem evaluateLogicBlock_fallback (cfg : JSVal) (env : EnvT) (fuel : Nat) (input : String) :
    (¬ (startsWithL lbb (joinLinesL input.data) &&
        endsWithL rbb (joinLinesL input.data)) = true →
      evaluateLogicBlock cfg env (fuel + 1) input = .ok (.vstr input, [])) ∧
    (∀ l1 l2,
      (startsWithL lbb (joinLinesL input.data) &&
        endsWithL rbb (joinLinesL input.data)) = true →
      evaluateNullishCoalesce cfg env fuel
          (jsTrimL (interior2L (joinLinesL input.data))).asString = .ok (.undef, l1) →
      evaluateIfElseLogic cfg env fuel
          (jsTrimL (interior2L (joinLinesL input.data))).asString = .ok (.undef, l2) →
      evaluateLogicBlock cfg env (fuel + 1) input
        = .ok (.vstr (jsTrimL (interior2L (joinLinesL input.data))).asString, l1 ++ l2)) := by
  constructor
  · intro h
    rw [evaluateLogicBlock, if_pos h]
    rfl
  · intro l1 l2 hw h1 h2
    rw [evaluateLogicBlock, if_neg (by simp [hw])]
    simp [pbind, pret, JSVal.isUndef, h1, h2]

/-- C7, witness: an unwrapped input passes through unchanged, and a
wrapped conditional with no `else` degrades to its literal inner
text. -/
theorem evaluateLogicBlock_fallback_witness :
    evaluateLogicBlock (.vobj []) [] 8 "plain text" = .ok (.vstr "plain text", []) ∧
    evaluateLogicBlock (.vobj []) [] 8 "\x7b\x7b if (a equals b) then (c) \x7d\x7d"
      = .ok (.vstr "if (a equals b) then (c)", []) := by
  constructor
  · exact (evaluateLogicBlock_fallback (.vobj []) [] 7 "plain text").1 (by decide)
  · have h := (evaluateLogicBlock_fallback (.vobj []) [] 7
      "\x7b\x7b if (a equals b) then (c) \x7d\x7d").2 [] [] (by decide) rfl rfl
    simpa using h

/-! ## Cycle detection (claim C2) -/

/-- A string containing a non-whitespace character does not trim to
nothing. -/
theorem jsTrimL_nonempty_of_mem {l : List Char} {c : Char}
    (hc : c ∈ l) (hw : isJsWs c = false) : (jsTrimL l).isEmpty = false := by
  by_contra h
  have h' : (jsTrimL l) = [] := by
    cases he : jsTrimL l with
    | nil => rfl
    | cons a b => rw [he] at h; simp at h
  have hall : ∀ x ∈ l, isJsWs x = true := by
    have hrev : ((l.dropWhile isJsWs).reverse.dropWhile isJsWs) = [] := by
      have : ((l.dropWhile isJsWs).reverse.dropWhile isJsWs).reverse = [] := h'
      simpa using this
    have hd : ∀ x ∈ (l.dropWhile isJsWs).reverse, isJsWs x = true := by
      intro x hx
      exact List.dropWhile_eq_nil_iff.mp hrev x hx
    intro x hx
    rw [← List.takeWhile_append_dropWhile (p := isJsWs) (l := l)] at hx
    rcases List.mem_append.mp hx with h1 | h1
    · exact List.mem_takeWhile_imp h1
    · exact hd x (List.mem_reverse.mpr h1)
  rw [hall c hc] at hw
  simp at hw

/-- The separator of a joined chain of length at least two survives a
trim. -/
theorem joinArrow_nontrivial (c : String) (rest : List String) :
    (jsTrimL (joinWith " -> " (c :: rest)).data).isEmpty = false ∨ rest = [] := by
  cases rest with
  | nil => exact Or.inr rfl
  | cons r rs =>
    left
    have hj : joinWith " -> " (c :: r :: rs) = c ++ " -> " ++ joinWith " -> " (r :: rs) := rfl
    apply jsTrimL_nonempty_of_mem (c := '-')
    · rw [hj]
      simp only [String.data_append]
      refine List.mem_append.mpr (Or.inl ?_)
      refine List.mem_append.mpr (Or.inr ?_)
      decide
    · decide

/-- C2, counterexample: resolving the self-referencing path `a` fails
with a `ReferenceError` whose *message* is the fixed text
`Circular dependency detected` — which does not contain `a -> a` —
while the joined chain `a -> a` is carried in the separate hint
field. -/
theorem cycle_error_message_counterexample :
    get 8 ["a"] (Config.new (.vobj [("a", .vstr "$a")]) [])
      = .error (.thrown "ReferenceError" "Circular dependency detected" (some "a -> a")) ∧
    containsSubL "a -> a".data "Circular dependency detected".data = false :=
  ⟨rfl, rfl⟩

/-- C2, amended: whenever the path being resolved already appears in
the current resolution chain (and is non-empty, since an empty name
returns early), resolution fails immediately with a `ReferenceError`
whose message is `Circular dependency detected` and whose *hint* is
the chain with the path appended, joined by ` -> `; for a
self-referencing path `a` the hint is `a -> a`. -/
theorem resolveVariableChain_cycle_amended (fuel : Nat) (str varname : String)
    (chain : List String) (st : St)
    (h1 : varname ≠ "") (h2 : varname ∈ chain) :
    resolveVariableChain (fuel + 1) str varname chain st
      = .error (.thrown "ReferenceError" "Circular dependency detected"
          (some (joinWith " -> " (chain ++ [varname])))) := by
  have hv : (varname == "") = false := by simp [h1]
  have hcont : chain.contains varname = true := by simpa [List.contains] using h2
  have hne : (jsTrimL (joinWith " -> " (chain ++ [varname])).data).isEmpty = false := by
    cases chain with
    | nil => exact absurd h2 (by simp)
    | cons c cs =>
      rcases joinArrow_nontrivial c (cs ++ [varname]) with h | h
      · simpa using h
      · exact absurd h (by simp)
  rw [resolveVariableChain]
  simp [hv, hcont, mkThrowable, hne]
  intro hx
  exact absurd h2 hx

/-- C2, witness: the amended cycle rule at the self-reference of the
counterexample's tree. -/
theorem resolveVariableChain_cycle_amended_witness :
    resolveVariableChain 5 "$a" "a" ["a"] (Config.new (.vobj [("a", .vstr "$a")]) [])
      = .error (.thrown "ReferenceError" "Circular dependency detected" (some "a -> a")) := by
  have h := resolveVariableChain_cycle_amended 4 "$a" "a" ["a"]
    (Config.new (.vobj [("a", .vstr "$a")]) []) (by decide) (by simp)
  simpa using h

/-! ## Reference recognition during translation (claim C10) -/

/-- Scanning for directive blocks leaves a string without a left
brace unchanged. -/
theorem replaceBlocksGo_no_brace (elb : String → PRes (List Char)) :
    ∀ (n : Nat) (l : List Char), (∀ c ∈ l, (c == lbraceC) = false) →
      replaceBlocksGo elb n l = pret l := by
  intro n
  induction n with
  | zero => intro l _; cases l <;> rfl
  | succ n ih =>
    intro l h
    cases l with
    | nil => rfl
    | cons c rest =>
      rw [replaceBlocksGo]
      rw [if_neg (by simp [h c (by simp)])]
      rw [ih rest (fun x hx => h x (by simp [hx]))]
      simp [pbind, pret]

/-- A string starts with itself. -/
theorem startsWithL_self : ∀ l : List Char, startsWithL l l = true := by
  intro l
  induction l with
  | nil => rfl
  | cons c rest ih => simp [startsWithL, ih]

/-- Removing the first occurrence of a string from itself leaves
nothing. -/
theorem removeFirstSubL_self (l : List Char) : removeFirstSubL l l = [] := by
  have hidx : idxOfSubL l l = some 0 := by
    cases l with
    | nil => rfl
    | cons c rest => simp [idxOfSubL, startsWithL_self]
  simp [removeFirstSubL, hidx, List.drop_length]

/-- A matched full reference contains no brace character. -/
theorem fullVarMatchL_no_brace {l : List Char} {name : List Char}
    (h : fullVarMatchL l = some name) : ∀ c ∈ l, (c == lbraceC) = false := by
  unfold fullVarMatchL at h
  split at h
  next c rest =>
    by_cases hc : (isVarStart c && rest.all isVarChar) = true
    · simp only [hc, if_pos] at h
      intro x hx
      rcases hx with _ | ⟨_, hx⟩
      · decide
      · rcases hx with _ | ⟨_, hx⟩
        · have h1 : isVarStart c = true := by
            have := hc; simp at this; exact this.1
          by_contra hb
          have hcl : c = lbraceC := by
            have hb' : (c == lbraceC) = true := by
              cases hcc : (c == lbraceC) <;> simp_all
            simpa using hb'
          rw [hcl] at h1
          exact absurd h1 (by decide)
        · have h2 : ∀ y ∈ rest, isVarChar y = true := by
            have := hc; simp at this
            intro y hy; exact this.2 y hy
          have hvc := h2 x hx
          by_contra hb
          have hxl : x = lbraceC := by
            have hb' : (x == lbraceC) = true := by
              cases hcc : (x == lbraceC) <;> simp_all
            simpa using hb'
          rw [hxl] at hvc
          exact absurd hvc (by decide)
    · rw [if_neg hc] at h
      exact absurd h (by simp)
  next =>
    exact absurd h (by simp)

/-- The state is unchanged by an empty observation. -/
theorem St.addLog_nil (st : St) : st.addLog [] = st := by
  cases st
  simp [St.addLog]

/-- C10, counterexample: the token `$foo-bar`, which is not a full
reference, is *not* left as literal text: the embedded maximal
reference `$foo` is substituted inline, yielding `X-bar` on a tree
with `foo = "X"`. -/
theorem partial_reference_substitution_counterexample :
    translateVariables 8 (.vstr "$foo-bar") [] (Config.new (.vobj [("foo", .vstr "X")]) [])
      = .ok (.vstr "X-bar",
          ⟨.vobj [("foo", .vstr "X")], [], [("foo", .vstr "X")], [], []⟩) ∧
    (JSVal.vstr "X-bar") ≠ (JSVal.vstr "$foo-bar") := by
  refine ⟨rfl, by simp⟩

/-- C10, amended: a string that is exactly one reference
(`$` followed by a letter or underscore and then name characters,
matched in full) returns the resolved value itself through the
memoized chain, preserving its type (possibly non-string); a `$`
token of any other shape is not matched as a whole — `$9x` stays
literal text, while any embedded maximal well-formed references inside
it (as in `$foo-bar`) are substituted inline. -/
theorem translateVariables_reference_amended :
    (∀ (fuel : Nat) (s : String) (name : List Char) (chain : List String) (st : St),
      fullVarMatchL s.data = some name →
      translateVariables (fuel + 1) (.vstr s) chain st
        = resolveVariableChain fuel s name.asString chain st) ∧
    translateVariables 8 (.vstr "$n") [] (Config.new (.vobj [("n", .vnum 5)]) [])
      = .ok (.vnum 5, ⟨.vobj [("n", .vnum 5)], [], [("n", .vnum 5)], [], []⟩) ∧
    translateVariables 8 (.vstr "$9x") [] (Config.new (.vobj []) [])
      = .ok (.vstr "$9x", ⟨.vobj [], [], [], [], []⟩) := by
  refine ⟨?_, rfl, rfl⟩
  intro fuel s name chain st h
  have hnb := fullVarMatchL_no_brace h
  rw [translateVariables]
  simp only [replaceBlocksGo_no_brace _ _ _ hnb, pret, h, removeFirstSubL_self,
    St.addLog_nil]
  rfl

/-- C10, witness: the amended full-match rule applied at `$n`. -/
theorem translateVariables_reference_amended_witness :
    translateVariables 6 (.vstr "$n") [] (Config.new (.vobj [("n", .vnum 5)]) [])
      = resolveVariableChain 5 "$n" "n" [] (Config.new (.vobj [("n", .vnum 5)]) []) :=
  translateVariables_reference_amended.1 5 "$n" "n".data []
    (Config.new (.vobj [("n", .vnum 5)]) []) rfl

/-! ## C8: nested insertion and omission in `get` -/

/-- `str.split('.')` never yields an empty array of pieces. -/
theorem splitCharL_ne_nil (sep : Char) (l : List Char) : splitCharL sep l ≠ [] := by
  induction l with
  | nil => simp [splitCharL]
  | cons c rest ih =>
    simp only [splitCharL]
    cases h : c == sep
    · cases hr : splitCharL sep rest with
      | nil => exact absurd hr ih
      | cons hd tl => simp [h, hr]
    · simp [h]

/-- Inserting a value along a non-empty segment list into a fresh
empty object builds exactly the nested object the path spells. -/
theorem insertPath_fresh (parts : List String) (v : JSVal) (h : parts ≠ []) :
    insertPath (.vobj []) parts v = .ok (specNest parts v) := by
  induction parts with
  | nil => exact absurd rfl h
  | cons p rest ih =>
    cases rest with
    | nil => simp [insertPath, setProp, specNest, assocSet]
    | cons r1 rs =>
      simp [insertPath, jsGetProp, truthy, setProp, assocSet,
        ih (List.cons_ne_nil r1 rs), specNest]

/-- C8: `get` nests each requested path's translated value under the
path's dot segments and omits paths whose translated value is absent:
a single-key `get` returns exactly the translated value nested along
the split segments (or the empty object when the value is
`undefined`); an absent key is skipped, leaving the accumulated output
untouched; and on the tree `\x7ba: \x7bb: 1, c: 2\x7d\x7d` the query
`get("a.b")` returns `\x7ba: \x7bb: 1\x7d\x7d` while
`get("missing.path")` returns `\x7b\x7d`. -/
theorem get_nested_insertion :
    (∀ (fuel : Nat) (key : String) (st : St),
      get fuel [key] st
        = match translateVariables fuel (resolveConfigPath st.config key) [] st with
          | .error e => .error e
          | .ok (value, st') =>
            if value.isUndef then .ok (.vobj [], st')
            else .ok (specNest ((splitCharL '.' key.data).map List.asString) value, st')) ∧
    (∀ (fuel : Nat) (key : String) (rest : List String) (acc : JSVal) (st st' : St)
       (value : JSVal),
      translateVariables fuel (resolveConfigPath st.config key) [] st = .ok (value, st') →
      value.isUndef = true →
      getGo fuel (key :: rest) acc st = getGo fuel rest acc st') ∧
    get 8 ["a.b"] (Config.new (.vobj [("a", .vobj [("b", .vnum 1), ("c", .vnum 2)])]) [])
      = .ok (.vobj [("a", .vobj [("b", .vnum 1)])],
             Config.new (.vobj [("a", .vobj [("b", .vnum 1), ("c", .vnum 2)])]) []) ∧
    get 8 ["missing.path"]
        (Config.new (.vobj [("a", .vobj [("b", .vnum 1), ("c", .vnum 2)])]) [])
      = .ok (.vobj [],
             Config.new (.vobj [("a", .vobj [("b", .vnum 1), ("c", .vnum 2)])]) []) := by
  refine ⟨?_, ?_, rfl, rfl⟩
  · intro fuel key st
    cases h : translateVariables fuel (resolveConfigPath st.config key) [] st with
    | error e => simp [get, getGo, h]
    | ok vp =>
      obtain ⟨value, st'⟩ := vp
      cases hv : value.isUndef
      · have hp : (splitCharL '.' key.data).map List.asString ≠ [] := by
          intro hc
          rw [List.map_eq_nil_iff] at hc
          exact splitCharL_ne_nil _ _ hc
        simp [get, getGo, h, hv, insertPath_fresh _ _ hp, mret]
      · simp [get, getGo, h, hv, mret]
  · intro fuel key rest acc st st' value h hv
    simp only [getGo, h, hv, if_pos]

/-- C8, witness: skipping the absent key `missing.path` leaves the
loop state exactly where the lookup left it. -/
theorem get_nested_insertion_witness :
    getGo 8 ["missing.path"] (.vobj []) (Config.new (.vobj [("a", .vnum 1)]) [])
      = getGo 8 [] (.vobj []) (Config.new (.vobj [("a", .vnum 1)]) []) :=
  get_nested_insertion.2.1 8 "missing.path" [] (.vobj [])
    (Config.new (.vobj [("a", .vnum 1)]) [])
    (Config.new (.vobj [("a", .vnum 1)]) []) .undef rfl rfl

/-! ## C4: the memo cache -/

/-- Raw lookup steps over a cons cell. -/
theorem bankFind_cons (p : String × JSVal) (rest : List (String × JSVal)) (q : String) :
    bankFind (p :: rest) q = if p.1 == q then some p.2 else bankFind rest q := by
  simp only [bankFind, List.find?]
  cases h : p.1 == q <;> simp [h]

/-- `set` then raw lookup: the written key reads back the written
value, every other key is unaffected. -/
theorem bankFind_assocSet (b : List (String × JSVal)) (k q : String) (v : JSVal) :
    bankFind (assocSet b k v) q = if q = k then some v else bankFind b q := by
  induction b with
  | nil =>
    by_cases h : q = k
    · simp [assocSet, bankFind, List.find?, h]
    · have hkq : (k == q) = false := beq_eq_false_iff_ne.mpr (Ne.symm h)
      simp [assocSet, bankFind, List.find?, h, hkq]
  | cons p rest ih =>
    simp only [assocSet]
    by_cases hb : p.1 = k
    · rw [if_pos (by simp [beq_iff_eq, hb]), bankFind_cons, bankFind_cons]
      by_cases h : q = k
      · subst h
        simp [beq_iff_eq]
      · simp [beq_iff_eq, Ne.symm h, h, hb]
    · rw [if_neg (by simp [beq_iff_eq, hb]), bankFind_cons, bankFind_cons, ih]
      by_cases hpq : (p.1 == q) = true
      · have hqk : ¬ q = k := fun hc => hb (by rw [beq_iff_eq] at hpq; rw [hpq, hc])
        simp [hpq, hqk]
      · simp [hpq]

/-- An absent key has no raw cache entry. -/
theorem bankFind_none_of_not_has (b : List (String × JSVal)) (k : String)
    (h : bankHas b k = false) : bankFind b k = none := by
  induction b with
  | nil => rfl
  | cons p rest ih =>
    simp only [bankHas, List.any_cons, Bool.or_eq_false_iff] at h
    simp only [bankFind, List.find?, h.1]
    exact ih (by simp [bankHas, h.2])

/-- `get` after `set` at the same key. -/
theorem bankGet_assocSet (b : List (String × JSVal)) (k : String) (v : JSVal) :
    bankGet (assocSet b k v) k = v := by
  have h := bankFind_assocSet b k k v
  simp only [if_pos rfl] at h
  simp only [bankGet, bankFind] at h ⊢
  cases hf : (assocSet b k v).find? (fun p => p.1 == k) <;> simp [hf] at h ⊢
  · exact h

/-- `has` after `set` at the same key. -/
theorem bankHas_assocSet (b : List (String × JSVal)) (k : String) (v : JSVal) :
    bankHas (assocSet b k v) k = true := by
  induction b with
  | nil => simp [assocSet, bankHas]
  | cons p rest ih =>
    by_cases h : p.1 = k <;> simp [assocSet, bankHas, h, beq_iff_eq] <;>
      (simp [bankHas] at ih; simp [ih])

/-- `Array.prototype.includes` read back as membership. -/
theorem not_mem_of_contains_false {l : List String} {x : String}
    (h : l.contains x = false) : x ∉ l := by
  intro hm
  simp at h
  exact h hm

/-- `chainFinish` in closed form: the returned value is the cached
entry (or the original text over the sentinel), and the state changes
only in the dependency map, and only for a non-empty chain. -/
theorem chainFinish_eq (str varname : String) (chain : List String) (st : St) :
    chainFinish str varname chain st
      = .ok ((if (bankGet st.bank varname).isUndef = true then .vstr str
              else bankGet st.bank varname),
             if chain.isEmpty then st
             else ⟨st.config, st.env, st.bank, depsAdd st.deps varname chain, st.log⟩) := by
  unfold chainFinish
  by_cases h : (bankGet st.bank varname).isUndef = true <;> simp [h]

/-- Doing nothing respects the state discipline. -/
theorem chainInv_refl (chain : List String) (st : St) : chainInv chain st st :=
  ⟨rfl, rfl, fun _ _ _ h => h, fun _ _ => rfl⟩

/-- The state discipline composes along sequential steps. -/
theorem chainInv_trans {chain : List String} {s1 s2 s3 : St}
    (h1 : chainInv chain s1 s2) (h2 : chainInv chain s2 s3) : chainInv chain s1 s3 :=
  ⟨h2.1.trans h1.1, h2.2.1.trans h1.2.1,
   fun q w hw hf => h2.2.2.1 q w hw (h1.2.2.1 q w hw hf),
   fun q hq => (h2.2.2.2 q hq).trans (h1.2.2.2 q hq)⟩

/-- The state discipline restricts to a sub-chain. -/
theorem chainInv_mono {chain chain' : List String} {s1 s2 : St}
    (hsub : ∀ q, q ∈ chain → q ∈ chain') (h : chainInv chain' s1 s2) :
    chainInv chain s1 s2 :=
  ⟨h.1, h.2.1, h.2.2.1, fun q hq => h.2.2.2 q (hsub q hq)⟩

/-- A step that keeps the tree, the environment and the cache
(whatever it does to dependencies or the log) respects the state
discipline. -/
theorem chainInv_of_parts {chain : List String} {s1 s2 : St}
    (hc : s2.config = s1.config) (he : s2.env = s1.env) (hb : s2.bank = s1.bank) :
    chainInv chain s1 s2 :=
  ⟨hc, he, fun _ _ _ hf => by rw [hb]; exact hf, fun _ _ => by rw [hb]⟩

/-- Logging respects the state discipline. -/
theorem chainInv_addLog (chain : List String) (st : St) (lg : List String) :
    chainInv chain st (st.addLog lg) :=
  chainInv_of_parts rfl rfl rfl

/-- Installing the in-flight sentinel at a key the cache does not hold
yet respects the state discipline. -/
theorem chainInv_sentinel {chain : List String} (st : St) (varname : String)
    (hb : bankHas st.bank varname = false) (hnc : varname ∉ chain) :
    chainInv chain st
      ⟨st.config, st.env, assocSet st.bank varname .undef, st.deps, st.log⟩ := by
  refine ⟨rfl, rfl, ?_, ?_⟩
  · intro q w hw hf
    show bankFind (assocSet st.bank varname .undef) q = some w
    rw [bankFind_assocSet]
    by_cases h : q = varname
    · subst h
      rw [bankFind_none_of_not_has _ _ hb] at hf
      exact absurd hf (by simp)
    · rw [if_neg h]
      exact hf
  · intro q hq
    show bankFind (assocSet st.bank varname .undef) q = bankFind st.bank q
    rw [bankFind_assocSet, if_neg (fun (hqe : q = varname) => hnc (hqe ▸ hq))]

/-- Replacing the sentinel by the computed value respects the state
discipline: the overwritten key held the sentinel, never a real
value. -/
theorem chainInv_finalSet {chain : List String} (st3 : St) (varname : String)
    (formatted : JSVal)
    (hs : bankFind st3.bank varname = some JSVal.undef) (hnc : varname ∉ chain) :
    chainInv chain st3
      ⟨st3.config, st3.env, assocSet st3.bank varname formatted, st3.deps, st3.log⟩ := by
  refine ⟨rfl, rfl, ?_, ?_⟩
  · intro q w hw hf
    show bankFind (assocSet st3.bank varname formatted) q = some w
    rw [bankFind_assocSet]
    by_cases h : q = varname
    · subst h
      rw [hs] at hf
      exact absurd (Option.some.inj hf).symm hw
    · rw [if_neg h]
      exact hf
  · intro q hq
    show bankFind (assocSet st3.bank varname formatted) q = bankFind st3.bank q
    rw [bankFind_assocSet, if_neg (fun (hqe : q = varname) => hnc (hqe ▸ hq))]

/-- The resolution cluster obeys the state discipline at every fuel:
the tree and the environment are read-only, real (non-sentinel) cache
entries are never overwritten, and the entries of the paths on the
current chain are untouched. -/
theorem chainCluster_inv (fuel : Nat) :
    (∀ (str varname : String) (chain : List String) (st : St) (r : JSVal) (st' : St),
      resolveVariableChain fuel str varname chain st = .ok (r, st') → chainInv chain st st') ∧
    (∀ (value : JSVal) (chain : List String) (st : St) (r : JSVal) (st' : St),
      translateVariables fuel value chain st = .ok (r, st') → chainInv chain st st') ∧
    (∀ (segs : List VarSeg) (chain : List String) (st : St) (r : List Char) (st' : St),
      replaceVarSegs fuel segs chain st = .ok (r, st') → chainInv chain st st') ∧
    (∀ (l : List JSVal) (chain : List String) (st : St) (r : List JSVal) (st' : St),
      translateListGo fuel l chain st = .ok (r, st') → chainInv chain st st') := by
  induction fuel with
  | zero =>
    refine ⟨?_, ?_, ?_, ?_⟩
    · intro str varname chain st r st' h
      exact absurd h (by simp [resolveVariableChain])
    · intro value chain st r st' h
      exact absurd h (by simp [translateVariables])
    · intro segs chain st r st' h
      cases segs with
      | nil =>
        simp only [replaceVarSegs, mret, Except.ok.injEq, Prod.mk.injEq] at h
        rw [← h.2]
        exact chainInv_refl _ _
      | cons sg rest => exact absurd h (by simp [replaceVarSegs])
    · intro l chain st r st' h
      cases l with
      | nil =>
        simp only [translateListGo, mret, Except.ok.injEq, Prod.mk.injEq] at h
        rw [← h.2]
        exact chainInv_refl _ _
      | cons v rest => exact absurd h (by simp [translateListGo])
  | succ fuel ih =>
    obtain ⟨ih1, ih2, ih3, ih4⟩ := ih
    refine ⟨?_, ?_, ?_, ?_⟩
    · intro str varname chain st r st' h
      simp only [resolveVariableChain] at h
      split at h
      · simp only [Except.ok.injEq, Prod.mk.injEq] at h
        rw [← h.2]
        exact chainInv_refl _ _
      split at h
      · exact Except.noConfusion h
      split at h
      · rw [chainFinish_eq] at h
        simp only [Except.ok.injEq, Prod.mk.injEq] at h
        rw [← h.2]
        by_cases hce : chain.isEmpty = true
        · rw [if_pos hce]
          exact chainInv_refl _ _
        · rw [if_neg hce]
          exact chainInv_of_parts rfl rfl rfl
      rename_i hemp hcyc hhas
      case _ =>
        have hb : bankHas st.bank varname = false := by
          revert hhas
          cases bankHas st.bank varname <;> simp
        have hnc : varname ∉ chain := by
          apply not_mem_of_contains_false
          revert hcyc
          cases chain.contains varname <;> simp
        split at h
        · exact Except.noConfusion h
        · rename_i configValue lg heqRV
          split at h
          · simp only [Except.ok.injEq, Prod.mk.injEq] at h
            rw [← h.2]
            exact chainInv_trans (chainInv_sentinel st varname hb hnc)
              (chainInv_addLog chain _ lg)
          · split at h
            · exact Except.noConfusion h
            · rename_i formatted st3 heqTV
              rw [chainFinish_eq] at h
              simp only [Except.ok.injEq, Prod.mk.injEq] at h
              have i1 := @chainInv_sentinel chain st varname hb hnc
              have i2 := chainInv_addLog chain
                ⟨st.config, st.env, assocSet st.bank varname .undef, st.deps, st.log⟩ lg
              have i3' := ih2 configValue (chain ++ [varname]) _ _ _ heqTV
              have i3 : chainInv chain _ st3 :=
                chainInv_mono (fun q hq => List.mem_append_left _ hq) i3'
              have hs : bankFind st3.bank varname = some JSVal.undef := by
                have hskip := i3'.2.2.2 varname (by simp)
                rw [hskip]
                show bankFind (assocSet st.bank varname .undef) varname = some JSVal.undef
                rw [bankFind_assocSet, if_pos rfl]
              have i4 := @chainInv_finalSet chain st3 varname formatted hs hnc
              rw [← h.2]
              by_cases hce : chain.isEmpty = true
              · rw [if_pos hce]
                exact chainInv_trans (chainInv_trans i1 i2) (chainInv_trans i3 i4)
              · rw [if_neg hce]
                exact chainInv_trans
                  (chainInv_trans (chainInv_trans i1 i2) (chainInv_trans i3 i4))
                  (chainInv_of_parts rfl rfl rfl)
    · intro value chain st r st' h
      simp only [translateVariables] at h
      split at h
      · rename_i s
        split at h
        · exact Except.noConfusion h
        · rename_i v1 lg heqRB
          split at h
          · rename_i nameL heqFV
            split at h
            · exact chainInv_trans (chainInv_addLog chain st lg) (ih1 _ _ _ _ _ _ h)
            · split at h
              · exact Except.noConfusion h
              · rename_i v2 st2 heqRS
                simp only [Except.ok.injEq, Prod.mk.injEq] at h
                rw [← h.2]
                exact chainInv_trans (chainInv_addLog chain st lg) (ih3 _ _ _ _ _ heqRS)
          · split at h
            · exact Except.noConfusion h
            · rename_i v2 st2 heqRS
              simp only [Except.ok.injEq, Prod.mk.injEq] at h
              rw [← h.2]
              exact chainInv_trans (chainInv_addLog chain st lg) (ih3 _ _ _ _ _ heqRS)
      · rename_i l
        split at h
        · exact Except.noConfusion h
        · rename_i l2 st2 heqTL
          simp only [Except.ok.injEq, Prod.mk.injEq] at h
          rw [← h.2]
          exact ih4 _ _ _ _ _ heqTL
      · simp only [Except.ok.injEq, Prod.mk.injEq] at h
        rw [← h.2]
        exact chainInv_refl _ _
    · intro segs chain st r st' h
      cases segs with
      | nil =>
        simp only [replaceVarSegs, mret, Except.ok.injEq, Prod.mk.injEq] at h
        rw [← h.2]
        exact chainInv_refl _ _
      | cons sg rest =>
        cases sg with
        | lit l =>
          simp only [replaceVarSegs] at h
          split at h
          · exact Except.noConfusion h
          · rename_i tail st2 heq
            simp only [Except.ok.injEq, Prod.mk.injEq] at h
            rw [← h.2]
            exact ih3 _ _ _ _ _ heq
        | ref name =>
          simp only [replaceVarSegs] at h
          split at h
          · exact Except.noConfusion h
          · rename_i rv stA heq1
            split at h
            · exact Except.noConfusion h
            · rename_i tail st2 heq2
              simp only [Except.ok.injEq, Prod.mk.injEq] at h
              rw [← h.2]
              exact chainInv_trans (ih1 _ _ _ _ _ _ heq1) (ih3 _ _ _ _ _ heq2)
    · intro l chain st r st' h
      cases l with
      | nil =>
        simp only [translateListGo, mret, Except.ok.injEq, Prod.mk.injEq] at h
        rw [← h.2]
        exact chainInv_refl _ _
      | cons v rest =>
        simp only [translateListGo] at h
        split at h
        · exact Except.noConfusion h
        · rename_i v2 stA heq1
          split at h
          · exact Except.noConfusion h
          · rename_i l2 st2 heq2
            simp only [Except.ok.injEq, Prod.mk.injEq] at h
            rw [← h.2]
            exact chainInv_trans (ih2 _ _ _ _ _ heq1) (ih4 _ _ _ _ _ heq2)

/-- A successful top-level resolution of a non-empty path leaves the
cache holding that path, so an immediate second resolution returns the
identical result and leaves the whole state — the observation log
included — untouched, at any stack budget. -/
theorem rvc_second (fuel fuel' : Nat) (str varname : String) (st st' : St) (r : JSVal)
    (h0 : ¬ varname = "")
    (h : resolveVariableChain (fuel + 1) str varname [] st = .ok (r, st')) :
    resolveVariableChain (fuel' + 1) str varname [] st' = .ok (r, st') := by
  have hne : (varname == "") = false := beq_eq_false_iff_ne.mpr h0
  simp only [resolveVariableChain, hne, Bool.false_eq_true, if_false,
    List.contains_nil, St.addLog] at h
  by_cases hbk : bankHas st.bank varname = true
  · rw [if_pos hbk, chainFinish_eq] at h
    simp only [List.isEmpty_nil, if_true, Except.ok.injEq, Prod.mk.injEq] at h
    obtain ⟨h1, h2⟩ := h
    subst h2
    simp only [resolveVariableChain, hne, Bool.false_eq_true, if_false, List.contains_nil]
    rw [if_pos hbk, chainFinish_eq]
    simp only [List.isEmpty_nil, if_true, h1]
  · rw [if_neg hbk] at h
    split at h
    · exact Except.noConfusion h
    · rename_i configValue lg heqRV
      split at h
      · simp only [Except.ok.injEq, Prod.mk.injEq] at h
        obtain ⟨h1, h2⟩ := h
        subst h2
        simp only [resolveVariableChain, hne, Bool.false_eq_true, if_false,
          List.contains_nil]
        rw [if_pos (bankHas_assocSet st.bank varname JSVal.undef), chainFinish_eq,
          bankGet_assocSet]
        simp only [List.isEmpty_nil, if_true, JSVal.isUndef, h1]
      · split at h
        · exact Except.noConfusion h
        · rename_i formatted st3 heqTV
          rw [chainFinish_eq] at h
          simp only [List.isEmpty_nil, if_true, Except.ok.injEq, Prod.mk.injEq] at h
          rw [bankGet_assocSet] at h
          obtain ⟨h1, h2⟩ := h
          subst h2
          simp only [resolveVariableChain, hne, Bool.false_eq_true, if_false,
            List.contains_nil]
          rw [if_pos (bankHas_assocSet st3.bank varname formatted), chainFinish_eq,
            bankGet_assocSet]
          simp only [List.isEmpty_nil, if_true, h1]

/-- C4, counterexample: resolving the single path `a` on a fresh
instance whose tree holds the directive
`\x7b\x7b if ($x equals $x) then (y) else (n) \x7d\x7d` under `a`,
with environment `x = "1"`, performs the environment lookup of `x`
twice in this one resolution (observation log `["x", "x"]`) while the
memo cache stays empty: comparison operands are resolved through
`#resolveVariable` directly, bypassing the cache, so the underlying
evaluation is not performed at most once per path per instance. -/
theorem comparison_bypasses_memo_counterexample :
    get 12 ["a"]
        (Config.new
          (.vobj [("a", .vstr "\x7b\x7b if ($x equals $x) then (y) else (n) \x7d\x7d")])
          [("x", "1")])
      = .ok (.vobj [("a", .vstr "y")],
             ⟨.vobj [("a", .vstr "\x7b\x7b if ($x equals $x) then (y) else (n) \x7d\x7d")],
              [("x", "1")], [], [], ["x", "x"]⟩) ∧
    List.count "x" ["x", "x"] = 2 :=
  ⟨rfl, by decide⟩

/-- C4, amended: the memoized layer itself is idempotent and
write-once — a successful top-level resolution of a non-empty path
caches it, so an immediate second resolution returns the identical
value and the identical state (the observation log included, so the
second resolution performs no environment lookup) at any stack budget;
and no translation step ever overwrites a real (non-sentinel) cache
entry.  The at-most-once reading fails only for the comparison-operand
resolutions of the counterexample, which bypass this layer. -/
theorem resolveVariableChain_memoization_amended :
    (∀ (fuel fuel' : Nat) (str varname : String) (st st' : St) (r : JSVal),
      ¬ varname = "" →
      resolveVariableChain (fuel + 1) str varname [] st = .ok (r, st') →
      resolveVariableChain (fuel' + 1) str varname [] st' = .ok (r, st')) ∧
    (∀ (fuel : Nat) (value : JSVal) (chain : List String) (st : St) (r : JSVal) (st' : St)
       (q : String) (w : JSVal),
      translateVariables fuel value chain st = .ok (r, st') →
      ¬ w = JSVal.undef → bankFind st.bank q = some w → bankFind st'.bank q = some w) :=
  ⟨fun fuel fuel' str varname st st' r h0 h =>
    rvc_second fuel fuel' str varname st st' r h0 h,
   fun fuel value chain st r st' q w h hw hf =>
    ((chainCluster_inv fuel).2.1 value chain st r st' h).2.2.1 q w hw hf⟩

/-- C4, witness: after resolving `n` on a fresh instance over
`\x7bn: 5\x7d` (which caches `n ↦ 5`), a second resolution returns
the same value and leaves the state untouched. -/
theorem resolveVariableChain_memoization_amended_witness :
    resolveVariableChain 8 "$n" "n" []
        ⟨.vobj [("n", .vnum 5)], [], [("n", .vnum 5)], [], []⟩
      = .ok (.vnum 5, ⟨.vobj [("n", .vnum 5)], [], [("n", .vnum 5)], [], []⟩) :=
  resolveVariableChain_memoization_amended.1 7 7 "$n" "n"
    (Config.new (.vobj [("n", .vnum 5)]) [])
    ⟨.vobj [("n", .vnum 5)], [], [("n", .vnum 5)], [], []⟩ (.vnum 5)
    (by decide) rfl

/-! ## C9: the fingerprint -/

/-- Every value has positive weight. -/
theorem sizeW_pos (v : JSVal) : 1 ≤ sizeW v := by
  cases v <;> simp [sizeW]

/-- The weight of an array, without `attach`. -/
theorem sizeW_varr (l : List JSVal) : sizeW (.varr l) = 1 + (l.map sizeW).sum := by
  rw [sizeW]
  congr 1
  congr 1
  exact List.attach_map_val l sizeW

/-- The weight of an object, without `attach`. -/
theorem sizeW_vobj (l : List (String × JSVal)) :
    sizeW (.vobj l) = 1 + (l.map (fun p => sizeW p.2)).sum := by
  rw [sizeW]
  congr 1
  congr 1
  exact List.attach_map_val l (fun p => sizeW p.2)

/-- An element weighs no more than the container's content. -/
theorem sizeW_le_sum {l : List JSVal} {x : JSVal} (hx : x ∈ l) :
    sizeW x ≤ (l.map sizeW).sum :=
  List.single_le_sum (fun _ _ => Nat.zero_le _) _ (List.mem_map_of_mem sizeW hx)

/-- An entry's value weighs no more than the object's content. -/
theorem sizeW_le_sum_pairs {l : List (String × JSVal)} {p : String × JSVal} (hp : p ∈ l) :
    sizeW p.2 ≤ (l.map (fun q => sizeW q.2)).sum :=
  List.single_le_sum (fun _ _ => Nat.zero_le _) _ (List.mem_map_of_mem _ hp)

/-- The encoder does not depend on the fuel, as long as the fuel
covers the structural weight. -/
theorem encF_irrel (n : Nat) :
    ∀ (v : JSVal) (f g : Nat), sizeW v ≤ n → sizeW v ≤ f → sizeW v ≤ g →
      encF f v = encF g v := by
  induction n with
  | zero =>
    intro v f g hn _ _
    have := sizeW_pos v
    omega
  | succ n ih =>
    intro v f g hn hf hg
    cases v with
    | undef => simp only [encF]
    | vnull => simp only [encF]
    | vbool b => simp only [encF]
    | vnum q => simp only [encF]
    | vstr s => simp only [encF]
    | varr l =>
      rw [sizeW_varr] at hn hf hg
      obtain ⟨f', rfl⟩ : ∃ f', f = f' + 1 := ⟨f - 1, by omega⟩
      obtain ⟨g', rfl⟩ : ∃ g', g = g' + 1 := ⟨g - 1, by omega⟩
      simp only [encF]
      have hmap : l.map (encF f') = l.map (encF g') := by
        apply List.map_congr_left
        intro x hx
        have hxs := sizeW_le_sum hx
        exact ih x f' g' (by omega) (by omega) (by omega)
      rw [hmap]
    | vobj l =>
      rw [sizeW_vobj] at hn hf hg
      obtain ⟨f', rfl⟩ : ∃ f', f = f' + 1 := ⟨f - 1, by omega⟩
      obtain ⟨g', rfl⟩ : ∃ g', g = g' + 1 := ⟨g - 1, by omega⟩
      simp only [encF]
      have hmap : l.map (fun p => natChars p.1.data.length ++ p.1.data ++ encF f' p.2)
          = l.map (fun p => natChars p.1.data.length ++ p.1.data ++ encF g' p.2) := by
        apply List.map_congr_left
        intro p hp
        have hxs := sizeW_le_sum_pairs hp
        rw [ih p.2 f' g' (by omega) (by omega) (by omega)]
      rw [hmap]

/-- The array encoding, with every element encoded at its own
weight. -/
theorem encV_varr (l : List JSVal) :
    encV (.varr l) = 'a' :: (natChars l.length ++ (l.map encV).flatten) := by
  unfold encV
  rw [sizeW_varr, Nat.add_comm 1 _]
  simp only [encF]
  have hmap : l.map (encF ((l.map sizeW).sum)) = l.map (fun v => encF (sizeW v) v) := by
    apply List.map_congr_left
    intro x hx
    exact encF_irrel (sizeW x) x _ _ le_rfl (sizeW_le_sum hx) le_rfl
  rw [hmap]

/-- The object encoding, with every value encoded at its own
weight. -/
theorem encV_vobj (l : List (String × JSVal)) :
    encV (.vobj l)
      = 'o' :: (natChars l.length ++
          (l.map (fun p => natChars p.1.data.length ++ (p.1.data ++ encV p.2))).flatten) := by
  unfold encV
  rw [sizeW_vobj, Nat.add_comm 1 _]
  simp only [encF]
  have hmap : l.map (fun p => natChars p.1.data.length ++ p.1.data
        ++ encF ((l.map (fun q => sizeW q.2)).sum) p.2)
      = l.map (fun p => natChars p.1.data.length ++ p.1.data ++ encF (sizeW p.2) p.2) := by
    apply List.map_congr_left
    intro p hp
    rw [encF_irrel (sizeW p.2) p.2 _ _ le_rfl (sizeW_le_sum_pairs hp) le_rfl]
  rw [hmap]
  simp [List.append_assoc]

/-- The binary code of a natural number decodes back, leaving the
remainder untouched. -/
theorem decodeNat_natCharsGo (f : Nat) :
    ∀ (n : Nat) (rest : List Char), n < f →
      decodeNat (natCharsGo f n ++ rest) = some (n, rest) := by
  induction f with
  | zero =>
    intro n rest h
    omega
  | succ f ih =>
    intro n rest h
    rw [natCharsGo]
    by_cases h0 : n = 0
    · subst h0
      simp [decodeNat]
    · rw [if_neg h0]
      by_cases hb : n % 2 = 1
      · rw [if_pos hb]
        simp only [List.cons_append, decodeNat, List.append_eq]
        rw [ih (n / 2) rest (by omega)]
        have hn : 2 * (n / 2) + 1 = n := by omega
        simp [hn]
      · rw [if_neg hb]
        simp only [List.cons_append, decodeNat, List.append_eq]
        rw [ih (n / 2) rest (by omega)]
        have hn : 2 * (n / 2) = n := by omega
        simp [hn]

/-- The prefix-free code of a natural number. -/
theorem decodeNat_natChars (n : Nat) (rest : List Char) :
    decodeNat (natChars n ++ rest) = some (n, rest) :=
  decodeNat_natCharsGo (n + 1) n rest (by omega)

/-- Taking back exactly the prefix that was appended. -/
theorem decTake_append (l rest : List Char) :
    decTake l.length (l ++ rest) = some (l, rest) := by
  unfold decTake
  rw [if_neg (by simp), List.take_left, List.drop_left]

/-- The decoder inverts the encoder: with fuel at least twice the
structural weight, decoding an encoded value consumes exactly the
encoding, returns the value, and leaves the remainder. -/
theorem dec_roundtrip (fuel : Nat) :
    (∀ (v : JSVal) (rest : List Char), 2 * sizeW v ≤ fuel →
      decGo fuel (encV v ++ rest) = some (v, rest)) ∧
    (∀ (l : List JSVal) (rest : List Char), 2 * (l.map sizeW).sum + 1 ≤ fuel →
      decList fuel l.length ((l.map encV).flatten ++ rest) = some (l, rest)) ∧
    (∀ (pl : List (String × JSVal)) (rest : List Char),
      2 * (pl.map (fun p => sizeW p.2)).sum + 1 ≤ fuel →
      decPairs fuel pl.length
        ((pl.map (fun p => natChars p.1.data.length ++ (p.1.data ++ encV p.2))).flatten
          ++ rest)
        = some (pl, rest)) := by
  induction fuel with
  | zero =>
    refine ⟨?_, ?_, ?_⟩
    · intro v rest h
      have := sizeW_pos v
      omega
    · intro l rest h
      omega
    · intro pl rest h
      omega
  | succ fuel ih =>
    obtain ⟨ihG, ihL, ihP⟩ := ih
    refine ⟨?_, ?_, ?_⟩
    · intro v rest h
      cases v with
      | undef => simp [encV, encF, decGo]
      | vnull => simp [encV, encF, decGo]
      | vbool b => cases b <;> simp [encV, encF, decGo]
      | vnum q =>
        by_cases hq : q.num < 0
        · have hneg : (q.num : ℚ) < 0 := by exact_mod_cast hq
          simp [encV, encF, intChars, hq, decGo, decodeNat_natChars, List.append_assoc]
          rw [abs_of_neg hneg, neg_neg]
          exact Rat.num_div_den q
        · have hnn : (0 : ℚ) ≤ (q.num : ℚ) := by exact_mod_cast Int.not_lt.mp hq
          simp [encV, encF, intChars, hq, decGo, decodeNat_natChars, List.append_assoc]
          rw [abs_of_nonneg hnn]
          exact Rat.num_div_den q
      | vstr s =>
        obtain ⟨sd⟩ := s
        simp [encV, encF, decGo, decodeNat_natChars, List.append_assoc, decTake_append,
          List.asString]
      | varr l =>
        rw [encV_varr, sizeW_varr] at *
        have hl : 2 * (l.map sizeW).sum + 1 ≤ fuel := by omega
        simp [decGo, decodeNat_natChars, List.append_assoc, ihL l rest hl]
      | vobj l =>
        rw [encV_vobj, sizeW_vobj] at *
        have hl : 2 * (l.map (fun p => sizeW p.2)).sum + 1 ≤ fuel := by omega
        simp only [List.cons_append, List.append_assoc, decGo, decodeNat_natChars,
          ihP l rest hl]
    · intro l rest hb
      cases l with
      | nil => simp [decList]
      | cons x xs =>
        simp only [List.map_cons, List.sum_cons] at hb
        have hx : 2 * sizeW x ≤ fuel := by omega
        have hxs : 2 * (xs.map sizeW).sum + 1 ≤ fuel := by
          have := sizeW_pos x
          omega
        simp only [List.map_cons, List.flatten_cons, List.length_cons, List.append_assoc,
          decList]
        rw [ihG x ((xs.map encV).flatten ++ rest) hx]
        simp [ihL xs rest hxs]
    · intro pl rest hb
      cases pl with
      | nil => simp [decPairs]
      | cons p ps =>
        obtain ⟨⟨kd⟩, v⟩ := p
        simp only [List.map_cons, List.sum_cons] at hb
        have hx : 2 * sizeW v ≤ fuel := by omega
        have hps : 2 * (ps.map (fun p => sizeW p.2)).sum + 1 ≤ fuel := by
          have := sizeW_pos v
          omega
        simp only [List.map_cons, List.flatten_cons, List.length_cons, List.append_assoc,
          decPairs]
        rw [decodeNat_natChars]
        simp only [decTake_append]
        rw [ihG v _ hx]
        simp only [ihP ps rest hps]
        simp [List.asString]

/-- The encoding is injective. -/
theorem encV_inj (v w : JSVal) (h : encV v = encV w) : v = w := by
  have hv := (dec_roundtrip (2 * sizeW v + 2 * sizeW w)).1 v [] (by omega)
  have hw := (dec_roundtrip (2 * sizeW v + 2 * sizeW w)).1 w [] (by omega)
  rw [List.append_nil] at hv hw
  rw [h, hw] at hv
  exact (congrArg Prod.fst (Option.some.inj hv)).symm

/-- The fingerprint is injective. -/
theorem fingerprint_inj (v w : JSVal) (h : fingerprint v = fingerprint w) : v = w :=
  encV_inj v w (congrArg String.data h)

/-- `raw` never changes the instance state. -/
theorem rawGo_state (keys : List String) :
    ∀ (acc : JSVal) (st : St) (r : JSVal) (st' : St),
      rawGo keys acc st = .ok (r, st') → st' = st := by
  induction keys with
  | nil =>
    intro acc st r st' h
    simp only [rawGo, mret, Except.ok.injEq, Prod.mk.injEq] at h
    exact h.2.symm
  | cons key rest ih =>
    intro acc st r st' h
    simp only [rawGo] at h
    split at h
    · exact ih _ _ _ _ h
    · split at h
      · exact Except.noConfusion h
      · exact ih _ _ _ _ h

/-- `get` never changes the tree component it reads. -/
theorem getGo_config (fuel : Nat) (keys : List String) :
    ∀ (acc : JSVal) (st : St) (r : JSVal) (st' : St),
      getGo fuel keys acc st = .ok (r, st') → st'.config = st.config := by
  induction keys with
  | nil =>
    intro acc st r st' h
    simp only [getGo, mret, Except.ok.injEq, Prod.mk.injEq] at h
    rw [← h.2]
  | cons key rest ih =>
    intro acc st r st' h
    simp only [getGo] at h
    split at h
    · exact Except.noConfusion h
    · rename_i value stA heq
      have hc : stA.config = st.config := ((chainCluster_inv fuel).2.1 _ _ _ _ _ heq).1
      split at h
      · exact (ih _ _ _ _ h).trans hc
      · split at h
        · exact Except.noConfusion h
        · exact (ih _ _ _ _ h).trans hc

/-- One facade call leaves the tree untouched. -/
theorem runOp_config (st : St) (op : COp) : (runOp st op).config = st.config := by
  cases op with
  | cget fuel keys =>
    simp only [runOp]
    split
    · rename_i x stA heq
      exact getGo_config fuel keys (.vobj []) st x stA heq
    · rfl
  | craw keys =>
    simp only [runOp]
    split
    · rename_i x stA heq
      rw [rawGo_state keys (.vobj []) st x stA heq]
    · rfl
  | chash => rfl

/-- A whole access history leaves the tree untouched. -/
theorem runOps_config (ops : List COp) :
    ∀ (st : St), (runOps st ops).config = st.config := by
  induction ops with
  | nil =>
    intro st
    rfl
  | cons op rest ih =>
    intro st
    exact (ih (runOp st op)).trans (runOp_config st op)

/-- C9: the fingerprint is deterministic and independent of access
history.  Modelled from the spec: `hash()` stands for the injective
encoding `fingerprint` of the raw tree.  Any sequence of `get`, `raw`
and `hash` calls leaves the fingerprint unchanged; instances over
equal trees have equal fingerprints; and equal fingerprints force
equal trees, so trees differing in any leaf receive different
fingerprints. -/
theorem hash_access_independent :
    (∀ (st : St) (ops : List COp), hashModel (runOps st ops) = hashModel st) ∧
    (∀ (st1 st2 : St), st1.config = st2.config → hashModel st1 = hashModel st2) ∧
    (∀ (st1 st2 : St), hashModel st1 = hashModel st2 → st1.config = st2.config) := by
  refine ⟨?_, ?_, ?_⟩
  · intro st ops
    unfold hashModel
    rw [runOps_config]
  · intro st1 st2 h
    unfold hashModel
    rw [h]
  · intro st1 st2 h
    exact fingerprint_inj _ _ h

/-- C9, witness: two instances over the same tree but different
environments have the same fingerprint. -/
theorem hash_access_independent_witness :
    hashModel (Config.new (.vobj [("a", .vnum 1)]) [])
      = hashModel (Config.new (.vobj [("a", .vnum 1)]) [("e", "1")]) :=
  hash_access_independent.2.1 (Config.new (.vobj [("a", .vnum 1)]) [])
    (Config.new (.vobj [("a", .vnum 1)]) [("e", "1")]) rfl

end Conf
